import Mathlib

/-!
Verification of the Brainfuck interpreter (crates `bf_types` and `bf_interp`).

The Rust source is shallowly embedded: `Program::new`/`Program::validate`
from `bf_types/src/lib.rs`, the `CellKind` trait and its `u8` instance from
`bf_interp/src/cell_kind.rs`, the `AutoNewlineWriter` from
`bf_interp/src/auto_newline_writer.rs`, and the `VM` with its instruction
handlers and `interpret` loop from `bf_interp/src/lib.rs`.  Machine integers
(`u8`) are modelled as `Nat` with explicit `% 256` where wrapping matters;
fallible operations return `Except`; the two `unwrap` calls on the jump
tables are modelled with `Option` (`none` = panic).  The nonterminating
`while` loop of `interpret` is modelled with explicit fuel.
-/

namespace BFI

/-- The eight Brainfuck opcodes (`RawInstruction` in `bf_types`). -/
inductive RawInstruction where
  | moveLeft
  | moveRight
  | increment
  | decrement
  | input
  | output
  | beginLoop
  | endLoop
deriving DecidableEq, Repr

/-- `RawInstruction::from_char`: map a source character to an opcode; every
other character is a comment and maps to `none`. -/
def RawInstruction.fromChar (c : Char) : Option RawInstruction :=
  if c = '<' then some .moveLeft
  else if c = '>' then some .moveRight
  else if c = '+' then some .increment
  else if c = '-' then some .decrement
  else if c = '.' then some .output
  else if c = ',' then some .input
  else if c = '[' then some .beginLoop
  else if c = ']' then some .endLoop
  else none

/-- A position-tagged instruction (`Instruction` in `bf_types`): 1-based row
and column plus the opcode. -/
structure Instruction where
  row : Nat
  col : Nat
  raw_instruction : RawInstruction
deriving DecidableEq, Repr

/-- `Instruction::new`. -/
def Instruction.new (row col : Nat) (ri : RawInstruction) : Instruction :=
  ⟨row, col, ri⟩

/-- A loaded program (`Program` in `bf_types`): source identifier plus the
instruction sequence. -/
structure Program where
  file_path : String
  instructions : List Instruction
deriving DecidableEq, Repr

/-- Model of Rust `str::split('\n')` on the character list of the source:
the segments between newline characters, in order (`""` gives one empty
segment, a trailing newline yields a trailing empty segment). -/
def splitNewlines : List Char → List (List Char)
  | [] => [[]]
  | c :: rest =>
    if c = '\n' then [] :: splitNewlines rest
    else
      match splitNewlines rest with
      | [] => [[c]]
      | l :: ls => (c :: l) :: ls

/-- `Program::new`: scan the source line by line (splitting on newline),
keeping 1-based row and column for every character that is an opcode and
skipping everything else. -/
def Program.new (file_path : String) (lines : String) : Program :=
  { file_path := file_path
    instructions :=
      (splitNewlines lines.toList).enum.flatMap fun rowLine =>
        rowLine.2.enum.filterMap fun colChar =>
          (RawInstruction.fromChar colChar.2).map fun ri =>
            Instruction.new (rowLine.1 + 1) (colChar.1 + 1) ri }

/-- Bracket-mismatch errors (`IncompatibleBracket` in `bf_types`). -/
inductive IncompatibleBracket where
  | missingOpenBracket (file_path : String) (close_bracket : Instruction)
  | missingCloseBracket (file_path : String) (open_bracket : Instruction)
deriving DecidableEq, Repr

/-- The scanning loop of `Program::validate`: walk the instruction list with
a stack of pending `BeginLoop` instructions (top of the Rust `Vec` is the
head of this list).  An `EndLoop` with an empty stack fails immediately;
otherwise the walk returns the final stack. -/
def validateAux (fp : String) : List Instruction → List Instruction →
    Except IncompatibleBracket (List Instruction)
  | stack, [] => .ok stack
  | stack, ins :: rest =>
    if ins.raw_instruction = .beginLoop then
      validateAux fp (ins :: stack) rest
    else if ins.raw_instruction = .endLoop then
      match stack with
      | [] => .error (.missingOpenBracket fp ins)
      | _ :: stack => validateAux fp stack rest
    else
      validateAux fp stack rest

/-- `Program::validate`: run the scan; afterwards, if any `BeginLoop` is
still pending, report the bottom of the stack (`stack.first()` in the Rust
`Vec`, i.e. the last element of our head-is-top list). -/
def Program.validate (p : Program) : Except IncompatibleBracket Unit :=
  match validateAux p.file_path [] p.instructions with
  | .error e => .error e
  | .ok stack =>
    match stack.getLast? with
    | some ins => .error (.missingCloseBracket p.file_path ins)
    | none => .ok ()

/-! ## Balanced brackets (specification side for C1) -/

/-- The subsequence of bracket opcodes of an instruction list, `true` for
`BeginLoop` and `false` for `EndLoop`. -/
def bracketsOf (l : List Instruction) : List Bool :=
  l.filterMap fun ins =>
    if ins.raw_instruction = .beginLoop then some true
    else if ins.raw_instruction = .endLoop then some false
    else none

/-- The standard balanced-parentheses (Dyck) property over a word of opens
(`true`) and closes (`false`): empty, wrapping, and concatenation. -/
inductive Balanced : List Bool → Prop where
  | nil : Balanced []
  | wrap {l : List Bool} : Balanced l → Balanced (true :: (l ++ [false]))
  | comp {l₁ l₂ : List Bool} : Balanced l₁ → Balanced l₂ → Balanced (l₁ ++ l₂)

/-- Counter semantics of a bracket word: scan left to right keeping the
number of pending opens, failing when a close arrives with counter zero. -/
def dyckScan : Nat → List Bool → Option Nat
  | n, [] => some n
  | n, b :: rest =>
    if b then dyckScan (n + 1) rest
    else
      match n with
      | 0 => none
      | m + 1 => dyckScan m rest

theorem dyckScan_nil (n : Nat) : dyckScan n [] = some n := rfl

theorem dyckScan_true (n : Nat) (rest : List Bool) :
    dyckScan n (true :: rest) = dyckScan (n + 1) rest := rfl

theorem dyckScan_false_zero (rest : List Bool) :
    dyckScan 0 (false :: rest) = none := rfl

theorem dyckScan_false_succ (n : Nat) (rest : List Bool) :
    dyckScan (n + 1) (false :: rest) = dyckScan n rest := rfl

theorem dyckScan_append (l₁ l₂ : List Bool) : ∀ n,
    dyckScan n (l₁ ++ l₂) = (dyckScan n l₁).bind fun m => dyckScan m l₂ := by
  induction l₁ with
  | nil => intro n; simp [dyckScan_nil]
  | cons b rest ih =>
    intro n
    cases b
    · cases n with
      | zero => simp [dyckScan_false_zero]
      | succ n =>
        rw [List.cons_append, dyckScan_false_succ, dyckScan_false_succ]
        exact ih n
    · rw [List.cons_append, dyckScan_true, dyckScan_true]
      exact ih (n + 1)

theorem dyckScan_shift {l : List Bool} : ∀ {n m : Nat}, dyckScan n l = some m →
    ∀ k, dyckScan (n + k) l = some (m + k) := by
  induction l with
  | nil =>
    intro n m h k
    rw [dyckScan_nil] at h
    injection h with h
    subst h
    exact dyckScan_nil _
  | cons b rest ih =>
    intro n m h k
    cases b
    · cases n with
      | zero => rw [dyckScan_false_zero] at h; cases h
      | succ n =>
        rw [dyckScan_false_succ] at h
        have hs : n + 1 + k = (n + k) + 1 := by omega
        rw [hs, dyckScan_false_succ]
        exact ih h k
    · rw [dyckScan_true] at h
      rw [dyckScan_true]
      have hs : n + k + 1 = n + 1 + k := by omega
      rw [hs]
      exact ih h k

theorem balanced_dyckScan {l : List Bool} (h : Balanced l) :
    ∀ n, dyckScan n l = some n := by
  induction h with
  | nil => intro n; exact dyckScan_nil n
  | wrap _ ih =>
    intro n
    rw [dyckScan_true, dyckScan_append, ih (n + 1)]
    show dyckScan (n + 1) [false] = some n
    rw [dyckScan_false_succ, dyckScan_nil]
  | comp _ _ ih₁ ih₂ =>
    intro n
    rw [dyckScan_append, ih₁ n]
    exact ih₂ n

theorem dyckScan_split_aux : ∀ (N : Nat) (l : List Bool) (n : Nat), l.length ≤ N →
    dyckScan (n + 1) l = some 0 →
    ∃ l₁ l₂, l = l₁ ++ false :: l₂ ∧ dyckScan 0 l₁ = some 0 ∧ dyckScan n l₂ = some 0 := by
  intro N
  induction N with
  | zero =>
    intro l n hlen h
    match l with
    | [] => rw [dyckScan_nil] at h; cases h
    | _ :: _ => simp at hlen
  | succ N ih =>
    intro l n hlen h
    match l with
    | [] => rw [dyckScan_nil] at h; cases h
    | false :: rest =>
      rw [dyckScan_false_succ] at h
      exact ⟨[], rest, rfl, dyckScan_nil 0, h⟩
    | true :: rest =>
      rw [dyckScan_true] at h
      have hr : rest.length ≤ N := by
        simp only [List.length_cons] at hlen; omega
      obtain ⟨a, b, hab, ha, hb⟩ := ih rest (n + 1) hr h
      have hbN : b.length ≤ N := by
        subst hab; simp only [List.length_append, List.length_cons] at hr; omega
      obtain ⟨c, d, hcd, hc, hd⟩ := ih b n hbN hb
      refine ⟨true :: (a ++ false :: c), d, ?_, ?_, hd⟩
      · subst hcd; subst hab; simp
      · rw [dyckScan_true, dyckScan_append]
        have ha1 : dyckScan (0 + 1) a = some 1 := by
          have := dyckScan_shift ha 1
          simpa using this
        rw [ha1]
        exact hc

theorem dyckScan_balanced : ∀ (N : Nat) (l : List Bool), l.length ≤ N →
    dyckScan 0 l = some 0 → Balanced l := by
  intro N
  induction N with
  | zero =>
    intro l hlen h
    match l with
    | [] => exact .nil
    | _ :: _ => simp at hlen
  | succ N ih =>
    intro l hlen h
    match l with
    | [] => exact .nil
    | false :: rest => rw [dyckScan_false_zero] at h; cases h
    | true :: rest =>
      rw [dyckScan_true] at h
      obtain ⟨a, b, hab, ha, hb⟩ := dyckScan_split_aux rest.length rest 0 le_rfl h
      subst hab
      simp only [List.length_cons, List.length_append, List.length_cons] at hlen
      have Ba : Balanced a := ih a (by omega) ha
      have Bb : Balanced b := ih b (by omega) hb
      have Bw : Balanced (true :: (a ++ [false])) := .wrap Ba
      have := Balanced.comp Bw Bb
      simpa using this

/-- The scanning loop of `validate` agrees with the counter semantics on the
bracket subsequence: an `ok` result carries a stack whose length is the final
counter, an `error` result corresponds to a failing scan. -/
theorem validateAux_dyck (fp : String) : ∀ (l stack : List Instruction),
    (∃ s, validateAux fp stack l = .ok s ∧
        dyckScan stack.length (bracketsOf l) = some s.length) ∨
    (∃ e, validateAux fp stack l = .error e ∧
        dyckScan stack.length (bracketsOf l) = none) := by
  intro l
  induction l with
  | nil => intro stack; exact .inl ⟨stack, rfl, dyckScan_nil _⟩
  | cons ins rest ih =>
    intro stack
    by_cases hb : ins.raw_instruction = .beginLoop
    · have hbr : bracketsOf (ins :: rest) = true :: bracketsOf rest := by
        simp [bracketsOf, hb]
      have hv : validateAux fp stack (ins :: rest) = validateAux fp (ins :: stack) rest := by
        simp [validateAux, hb]
      rw [hbr, hv, dyckScan_true]
      simpa using ih (ins :: stack)
    · by_cases he : ins.raw_instruction = .endLoop
      · have hbr : bracketsOf (ins :: rest) = false :: bracketsOf rest := by
          simp [bracketsOf, hb, he]
        match stack with
        | [] =>
          refine .inr ⟨.missingOpenBracket fp ins, ?_, ?_⟩
          · simp [validateAux, hb, he]
          · rw [hbr]; exact dyckScan_false_zero _
        | top :: stack =>
          have hv : validateAux fp (top :: stack) (ins :: rest) = validateAux fp stack rest := by
            simp [validateAux, hb, he]
          rw [hbr, hv, List.length_cons, dyckScan_false_succ]
          exact ih stack
      · have hbr : bracketsOf (ins :: rest) = bracketsOf rest := by
          simp [bracketsOf, hb, he]
        have hv : validateAux fp stack (ins :: rest) = validateAux fp stack rest := by
          simp [validateAux, hb, he]
        rw [hbr, hv]
        exact ih stack

/-- `validate` succeeds exactly when the counter scan of the bracket
subsequence completes with counter zero. -/
theorem validate_ok_iff_dyckScan (p : Program) :
    p.validate = .ok () ↔ dyckScan 0 (bracketsOf p.instructions) = some 0 := by
  rcases validateAux_dyck p.file_path p.instructions [] with ⟨s, hok, hd⟩ | ⟨e, herr, hd⟩
  · simp only [List.length_nil] at hd
    have hval : p.validate = (match s.getLast? with
        | some ins => .error (.missingCloseBracket p.file_path ins)
        | none => .ok ()) := by
      unfold Program.validate
      rw [hok]
    cases hgl : s.getLast? with
    | some ins =>
      rw [hgl] at hval
      have hsne : s ≠ [] := by
        intro hs; subst hs; simp at hgl
      constructor
      · intro h; rw [hval] at h; cases h
      · intro h
        rw [hd] at h
        have hlen : s.length = 0 := by simpa using h
        exact absurd (List.length_eq_zero.mp hlen) hsne
    | none =>
      rw [hgl] at hval
      have hs : s = [] := by
        cases s with
        | nil => rfl
        | cons x xs => simp at hgl
      subst hs
      simp only [List.length_nil] at hd
      constructor
      · intro _; exact hd
      · intro _; exact hval
  · have hval : p.validate = .error e := by
      unfold Program.validate
      rw [herr]
    simp only [List.length_nil] at hd
    constructor
    · intro h; rw [hval] at h; cases h
    · intro h; rw [hd] at h; cases h

/-- C1: loading any source text into a `Program` and calling `validate`
returns `Ok` exactly when the subsequence of `BeginLoop`/`EndLoop`
instructions is balanced and well-nested (the standard balanced-parentheses
property over those two opcodes only); every other source character is
dropped by loading and has no effect on the result. -/
theorem validate_ok_iff_balanced (file_path source : String) :
    (Program.new file_path source).validate = .ok () ↔
      Balanced (bracketsOf (Program.new file_path source).instructions) := by
  rw [validate_ok_iff_dyckScan]
  constructor
  · intro h
    exact dyckScan_balanced (bracketsOf (Program.new file_path source).instructions).length _
      le_rfl h
  · intro h
    exact balanced_dyckScan h 0

/-- Witness for C1 at the concrete source `"[]"`. -/
theorem validate_ok_iff_balanced_witness :
    (Program.new "" "[]").validate = .ok () := by
  refine (validate_ok_iff_balanced "" "[]").mpr ?_
  have h : bracketsOf (Program.new "" "[]").instructions = [true, false] := rfl
  rw [h]
  exact Balanced.wrap Balanced.nil

/-! ## Validation error reporting (C8) -/

theorem mem_of_getLast?_eq_some {α : Type} {l : List α} {a : α}
    (h : l.getLast? = some a) : a ∈ l := by
  have hx : a ∈ l.getLast? := by rw [h]; rfl
  obtain ⟨hne, heq⟩ := List.mem_getLast?_eq_getLast hx
  rw [heq]
  exact List.getLast_mem hne

/-- Every error produced by the scanning loop is an unmatched-close error
whose reported instruction is an `EndLoop` of the scanned list, and which
carries the scanned source identifier. -/
theorem validateAux_error_shape (fp : String) : ∀ (l stack : List Instruction)
    (e : IncompatibleBracket), validateAux fp stack l = .error e →
    ∃ ins, e = .missingOpenBracket fp ins ∧ ins ∈ l ∧
      ins.raw_instruction = .endLoop := by
  intro l
  induction l with
  | nil => intro stack e h; cases h
  | cons ins rest ih =>
    intro stack e h
    by_cases hb : ins.raw_instruction = .beginLoop
    · rw [show validateAux fp stack (ins :: rest) = validateAux fp (ins :: stack) rest by
        simp [validateAux, hb]] at h
      obtain ⟨i, he, hmem, hraw⟩ := ih (ins :: stack) e h
      exact ⟨i, he, List.mem_cons_of_mem _ hmem, hraw⟩
    · by_cases he : ins.raw_instruction = .endLoop
      · match stack with
        | [] =>
          rw [show validateAux fp [] (ins :: rest) =
              .error (.missingOpenBracket fp ins) by simp [validateAux, hb, he]] at h
          injection h with h
          exact ⟨ins, h.symm, List.mem_cons_self _ _, he⟩
        | top :: stack =>
          rw [show validateAux fp (top :: stack) (ins :: rest) =
              validateAux fp stack rest by simp [validateAux, hb, he]] at h
          obtain ⟨i, hee, hmem, hraw⟩ := ih stack e h
          exact ⟨i, hee, List.mem_cons_of_mem _ hmem, hraw⟩
      · rw [show validateAux fp stack (ins :: rest) = validateAux fp stack rest by
          simp [validateAux, hb, he]] at h
        obtain ⟨i, hee, hmem, hraw⟩ := ih stack e h
        exact ⟨i, hee, List.mem_cons_of_mem _ hmem, hraw⟩

/-- Every instruction on the final stack of a successful scan was either on
the initial stack or is a `BeginLoop` of the scanned list. -/
theorem validateAux_ok_stack (fp : String) : ∀ (l stack s : List Instruction),
    validateAux fp stack l = .ok s →
    ∀ x ∈ s, x ∈ stack ∨ (x ∈ l ∧ x.raw_instruction = .beginLoop) := by
  intro l
  induction l with
  | nil =>
    intro stack s h x hx
    injection h with h
    subst h
    exact .inl hx
  | cons ins rest ih =>
    intro stack s h x hx
    by_cases hb : ins.raw_instruction = .beginLoop
    · rw [show validateAux fp stack (ins :: rest) = validateAux fp (ins :: stack) rest by
        simp [validateAux, hb]] at h
      rcases ih (ins :: stack) s h x hx with hst | ⟨hmem, hraw⟩
      · rcases List.mem_cons.mp hst with hxi | hxs
        · exact .inr ⟨hxi ▸ List.mem_cons_self _ _, hxi ▸ hb⟩
        · exact .inl hxs
      · exact .inr ⟨List.mem_cons_of_mem _ hmem, hraw⟩
    · by_cases he : ins.raw_instruction = .endLoop
      · match stack with
        | [] =>
          rw [show validateAux fp [] (ins :: rest) =
              .error (.missingOpenBracket fp ins) by simp [validateAux, hb, he]] at h
          cases h
        | top :: stack =>
          rw [show validateAux fp (top :: stack) (ins :: rest) =
              validateAux fp stack rest by simp [validateAux, hb, he]] at h
          rcases ih stack s h x hx with hst | ⟨hmem, hraw⟩
          · exact .inl (List.mem_cons_of_mem _ hst)
          · exact .inr ⟨List.mem_cons_of_mem _ hmem, hraw⟩
      · rw [show validateAux fp stack (ins :: rest) = validateAux fp stack rest by
          simp [validateAux, hb, he]] at h
        rcases ih stack s h x hx with hst | ⟨hmem, hraw⟩
        · exact .inl hst
        · exact .inr ⟨List.mem_cons_of_mem _ hmem, hraw⟩

/-! ## Cell arithmetic (`cell_kind.rs`, C4) -/

/-- The capability set of the `CellKind` trait: constants, the arithmetic
and comparison operators the default methods use, and the byte
conversions. -/
structure CellKindImpl (α : Type) where
  zero : α
  one : α
  max : α
  min : α
  add : α → α → α
  sub : α → α → α
  lt : α → α → Bool
  set_value : α → Nat → α
  get_value : α → Nat

/-- Default method `CellKind::increment`: add one below `max`, otherwise
wrap to `min`. -/
def CellKindImpl.increment {α : Type} (ck : CellKindImpl α) (v : α) : α :=
  if ck.lt v ck.max then ck.add v ck.one else ck.min

/-- Default method `CellKind::decrement`: subtract one above `min`,
otherwise wrap to `max`. -/
def CellKindImpl.decrement {α : Type} (ck : CellKindImpl α) (v : α) : α :=
  if ck.lt ck.min v then ck.sub v ck.one else ck.max

/-- The `impl CellKind for u8`: bytes are modelled as `Nat` below 256, the
wrapping `u8` operators carry an explicit `% 256`, `set_value`/`get_value`
are the identity. -/
def u8Cell : CellKindImpl Nat :=
  { zero := 0
    one := 1
    max := 255
    min := 0
    add := fun a b => (a + b) % 256
    sub := fun a b => (a + 256 - b) % 256
    lt := fun a b => a < b
    set_value := fun _ value => value
    get_value := fun v => v }

/-- C4: for every `u8` cell value, incrementing 255 yields 0, decrementing
0 yields 255, every other value is incremented/decremented by exactly one,
and increment/decrement are mutually inverse round trips. -/
theorem u8_increment_decrement_laws :
    u8Cell.increment 255 = 0 ∧
    u8Cell.decrement 0 = 255 ∧
    (∀ v : Nat, v < 255 → u8Cell.increment v = v + 1) ∧
    (∀ v : Nat, 0 < v → v ≤ 255 → u8Cell.decrement v = v - 1) ∧
    (∀ v : Nat, v ≤ 255 → u8Cell.decrement (u8Cell.increment v) = v) ∧
    (∀ v : Nat, v ≤ 255 → u8Cell.increment (u8Cell.decrement v) = v) := by
  have hinc : ∀ v : Nat, v < 255 → u8Cell.increment v = v + 1 := by
    intro v hv
    simp only [CellKindImpl.increment, u8Cell]
    rw [if_pos (by simpa using hv)]
    exact Nat.mod_eq_of_lt (by omega)
  have hinc255 : u8Cell.increment 255 = 0 := by
    simp [CellKindImpl.increment, u8Cell]
  have hdec : ∀ v : Nat, 0 < v → v ≤ 255 → u8Cell.decrement v = v - 1 := by
    intro v hv hv'
    simp only [CellKindImpl.decrement, u8Cell]
    rw [if_pos (by simpa using hv)]
    show (v + 256 - 1) % 256 = v - 1
    omega
  have hdec0 : u8Cell.decrement 0 = 255 := by
    simp [CellKindImpl.decrement, u8Cell]
  refine ⟨hinc255, hdec0, hinc, hdec, ?_, ?_⟩
  · intro v hv
    rcases Nat.lt_or_ge v 255 with h | h
    · rw [hinc v h, hdec (v + 1) (by omega) (by omega)]
      omega
    · have hv255 : v = 255 := by omega
      rw [hv255, hinc255, hdec0]
  · intro v hv
    rcases Nat.eq_or_lt_of_le (Nat.zero_le v) with h | h
    · rw [← h, hdec0, hinc255]
    · rw [hdec v h hv, hinc (v - 1) (by omega)]
      omega

/-- Witness for C4 at the concrete cell value 7. -/
theorem u8_increment_decrement_laws_witness :
    u8Cell.increment 7 = 8 ∧ u8Cell.decrement 7 = 6 ∧
      u8Cell.decrement (u8Cell.increment 7) = 7 ∧
      u8Cell.increment (u8Cell.decrement 7) = 7 := by
  obtain ⟨_, _, hinc, hdec, hrt₁, hrt₂⟩ := u8_increment_decrement_laws
  exact ⟨hinc 7 (by omega), hdec 7 (by omega) (by omega),
    hrt₁ 7 (by omega), hrt₂ 7 (by omega)⟩

/-! ## The auto-newline writer (`auto_newline_writer.rs`, C5, C10) -/

/-- `AutoNewlineWriter`: the wrapped byte sink is modelled as the list of
bytes written to it so far, together with the flag recording whether the
last written byte was a newline. -/
structure AutoNewlineWriter where
  written : List Nat
  last_written_char_is_newline : Bool
deriving DecidableEq, Repr

/-- `AutoNewlineWriter::new`. -/
def AutoNewlineWriter.new : AutoNewlineWriter :=
  { written := [], last_written_char_is_newline := false }

/-- `Write::write` for `AutoNewlineWriter`: record whether the buffer's
last byte is `b'\n'` (byte 10), then forward the buffer to the sink. -/
def AutoNewlineWriter.write (w : AutoNewlineWriter) (buf : List Nat) :
    AutoNewlineWriter :=
  { written := w.written ++ buf
    last_written_char_is_newline :=
      match buf.getLast? with
      | some c => c == 10
      | none => false }

/-- `Drop::drop` for `AutoNewlineWriter`: on finalization, append a single
newline byte unless the last written byte already was one. -/
def AutoNewlineWriter.finalize (w : AutoNewlineWriter) : AutoNewlineWriter :=
  if w.last_written_char_is_newline then w else w.write [10]

/-- The interpreter writes through the wrapper one byte at a time
(`write(&[value])` in `VM::write_value`); `writeAll` performs such a
sequence of writes on a fresh wrapper. -/
def writeAll (bytes : List Nat) : AutoNewlineWriter :=
  bytes.foldl (fun w b => w.write [b]) AutoNewlineWriter.new

theorem getLast?_cons_of_some {α : Type} (b : α) {rest : List α} {c : α}
    (h : rest.getLast? = some c) : (b :: rest).getLast? = some c := by
  cases rest with
  | nil => simp at h
  | cons x xs => rw [List.getLast?_cons_cons]; exact h

theorem writeAll_foldl (w : AutoNewlineWriter) : ∀ bytes : List Nat,
    (bytes.foldl (fun w b => w.write [b]) w).written = w.written ++ bytes ∧
    (bytes.foldl (fun w b => w.write [b]) w).last_written_char_is_newline =
      (match bytes.getLast? with
       | some c => c == 10
       | none => w.last_written_char_is_newline) := by
  intro bytes
  induction bytes generalizing w with
  | nil => simp
  | cons b rest ih =>
    obtain ⟨h₁, h₂⟩ := ih (w.write [b])
    constructor
    · rw [List.foldl_cons, h₁]
      simp [AutoNewlineWriter.write]
    · rw [List.foldl_cons, h₂]
      cases hgl : rest.getLast? with
      | some c => simp [hgl, getLast?_cons_of_some b hgl]
      | none =>
        have : rest = [] := by
          cases rest with
          | nil => rfl
          | cons x xs => simp at hgl
        subst this
        simp [AutoNewlineWriter.write]

/-- C5: for every sequence of single-byte writes performed through the
wrapper, finalization leaves the sink ending in a newline byte; if the last
written byte was already a newline nothing is appended, otherwise exactly
one newline byte is appended; the bytes already written are never altered
or duplicated (they remain a prefix, unchanged). -/
theorem auto_newline_writer_finalize (bytes : List Nat) :
    (writeAll bytes).written = bytes ∧
    ((writeAll bytes).finalize).written.getLast? = some 10 ∧
    (bytes.getLast? = some 10 → ((writeAll bytes).finalize).written = bytes) ∧
    (bytes.getLast? ≠ some 10 →
      ((writeAll bytes).finalize).written = bytes ++ [10]) := by
  obtain ⟨h₁, h₂⟩ := writeAll_foldl AutoNewlineWriter.new bytes
  have hw : (writeAll bytes).written = bytes := by simpa [AutoNewlineWriter.new] using h₁
  have hfl : (writeAll bytes).last_written_char_is_newline =
      (match bytes.getLast? with
       | some c => c == 10
       | none => false) := by
    simpa [AutoNewlineWriter.new] using h₂
  refine ⟨hw, ?_, ?_, ?_⟩
  · cases hgl : bytes.getLast? with
    | some c =>
      rw [hgl] at hfl
      by_cases hc : c = 10
      · subst hc
        have : (writeAll bytes).finalize = writeAll bytes := by
          unfold AutoNewlineWriter.finalize
          rw [if_pos (by simp [hfl])]
        rw [this, hw, hgl]
      · have : (writeAll bytes).finalize = (writeAll bytes).write [10] := by
          unfold AutoNewlineWriter.finalize
          rw [if_neg (by simp [hfl, hc])]
        rw [this]
        simp [AutoNewlineWriter.write]
    | none =>
      rw [hgl] at hfl
      have : (writeAll bytes).finalize = (writeAll bytes).write [10] := by
        unfold AutoNewlineWriter.finalize
        rw [if_neg (by simp [hfl])]
      rw [this]
      simp [AutoNewlineWriter.write]
  · intro hgl
    rw [hgl] at hfl
    have : (writeAll bytes).finalize = writeAll bytes := by
      unfold AutoNewlineWriter.finalize
      rw [if_pos (by simp [hfl])]
    rw [this, hw]
  · intro hgl
    have hflf : (writeAll bytes).last_written_char_is_newline = false := by
      rw [hfl]
      cases hg : bytes.getLast? with
      | some c =>
        have : ¬ c = 10 := by
          intro hc; subst hc; exact hgl hg
        simp [this]
      | none => rfl
    have : (writeAll bytes).finalize = (writeAll bytes).write [10] := by
      unfold AutoNewlineWriter.finalize
      rw [if_neg (by simp [hflf])]
    rw [this]
    simp [AutoNewlineWriter.write, hw]

/-- Witness for C5 on the byte sequence `[65]` (no trailing newline). -/
theorem auto_newline_writer_finalize_witness :
    ((writeAll [65]).finalize).written = [65] ++ [10] :=
  (auto_newline_writer_finalize [65]).2.2.2 (by simp)

/-! ## The virtual machine (`bf_interp/src/lib.rs`) -/

/-- Runtime errors (`BrainfuckRuntimeError`).  The `std::io::Error` payload
of the read/write variants carries no behaviour and is dropped in the
model; the source identifier and failing instruction are kept. -/
inductive BrainfuckRuntimeError where
  | cannotMoveLeftError (file_path : String) (ins : Instruction)
  | cannotMoveRightError (file_path : String) (ins : Instruction)
  | cannotReadInputError (file_path : String) (ins : Instruction)
  | cannotWriteOutputError (file_path : String) (ins : Instruction)
deriving DecidableEq, Repr

/-- `HashMap::get` on the association-list model of a jump table (keys are
inserted at most once, so the first match is the entry). -/
def assocGet (m : List (Nat × Nat)) (k : Nat) : Option Nat :=
  (m.find? fun pr => pr.1 == k).map Prod.snd

/-- The bracket-matching loop of `VM::new`: enumerate the instructions,
pushing each `BeginLoop` index and, on `EndLoop`, popping with
`stack.pop().unwrap()` — modelled as `none` when the stack is empty (the
panic) — and inserting the pair into `open_to_close` (most recent insert
first).  Returns the final stack together with the accumulated map. -/
def buildBrackets : List Instruction → Nat → List Nat → List (Nat × Nat) →
    Option (List Nat × List (Nat × Nat))
  | [], _, stack, acc => some (stack, acc)
  | ins :: rest, idx, stack, acc =>
    if ins.raw_instruction = .beginLoop then
      buildBrackets rest (idx + 1) (idx :: stack) acc
    else if ins.raw_instruction = .endLoop then
      match stack with
      | [] => none
      | open_idx :: stack => buildBrackets rest (idx + 1) stack ((open_idx, idx) :: acc)
    else
      buildBrackets rest (idx + 1) stack acc

/-- The Brainfuck virtual machine at cell type `u8` (`VM<u8>`): the memory,
pointer, extension flag and program counter, together with the borrowed
program (source identifier and instructions) and the two jump tables. -/
structure VM where
  memory : List Nat
  pointer : Nat
  can_extend : Bool
  program_counter : Nat
  file_path : String
  instructions : List Instruction
  open_to_close : List (Nat × Nat)
  close_to_open : List (Nat × Nat)
deriving DecidableEq, Repr

/-- `VM::new`: zero-filled memory of the configured size, pointer and PC 0,
jump tables built by `buildBrackets` (`close_to_open` is the reverse map);
`none` models the panic of the `unwrap` during table construction. -/
def VM.new (memory_size : Nat) (can_extend : Bool) (p : Program) : Option VM :=
  (buildBrackets p.instructions 0 [] []).map fun sb =>
    { memory := List.replicate memory_size u8Cell.zero
      pointer := 0
      can_extend := can_extend
      program_counter := 0
      file_path := p.file_path
      instructions := p.instructions
      open_to_close := sb.2
      close_to_open := sb.2.map fun pr => (pr.2, pr.1) }

/-- `self.program.instructions()[self.program_counter]`, as read by the
error paths of the handlers.  The Rust indexing panics out of range; the
interpreter only evaluates it under `program_counter < instructions.length`,
where it equals the dispatched instruction, so the model totalizes it with
a default. -/
def VM.currentInstruction (vm : VM) : Instruction :=
  vm.instructions.getD vm.program_counter (Instruction.new 0 0 .beginLoop)

/-- `VM::move_left`: error at pointer 0, otherwise decrement the pointer;
returns the next program counter alongside the updated machine. -/
def VM.move_left (vm : VM) : Except BrainfuckRuntimeError (Nat × VM) :=
  if vm.pointer = 0 then
    .error (.cannotMoveLeftError vm.file_path vm.currentInstruction)
  else
    .ok (vm.program_counter + 1, { vm with pointer := vm.pointer - 1 })

/-- `VM::move_right`: at the last valid index, either fail (extension
disabled) or double the memory by appending zeroed cells
(`Vec::resize(2 * memory_size, zero)`); then increment the pointer. -/
def VM.move_right (vm : VM) : Except BrainfuckRuntimeError (Nat × VM) :=
  if vm.pointer = vm.memory.length - 1 ∧ vm.can_extend = false then
    .error (.cannotMoveRightError vm.file_path vm.currentInstruction)
  else
    .ok (vm.program_counter + 1,
      { vm with
        memory :=
          if vm.pointer = vm.memory.length - 1 then
            vm.memory ++ List.replicate vm.memory.length u8Cell.zero
          else vm.memory
        pointer := vm.pointer + 1 })

/-- `VM::increment`: wrapping increment of the current cell. -/
def VM.increment (vm : VM) : Except BrainfuckRuntimeError (Nat × VM) :=
  .ok (vm.program_counter + 1,
    { vm with memory :=
        vm.memory.set vm.pointer (u8Cell.increment (vm.memory.getD vm.pointer 0)) })

/-- `VM::decrement`: wrapping decrement of the current cell. -/
def VM.decrement (vm : VM) : Except BrainfuckRuntimeError (Nat × VM) :=
  .ok (vm.program_counter + 1,
    { vm with memory :=
        vm.memory.set vm.pointer (u8Cell.decrement (vm.memory.getD vm.pointer 0)) })

/-- `VM::read_value`: `read_exact` of a single byte from the input source,
modelled as a byte list — empty input is the end-of-stream/read failure of
`read_exact`, and the error path leaves machine and input untouched; on
success the byte is stored in the current cell via `set_value`. -/
def VM.read_value (vm : VM) (input : List Nat) :
    Except BrainfuckRuntimeError (Nat × VM × List Nat) :=
  match input with
  | [] => .error (.cannotReadInputError vm.file_path vm.currentInstruction)
  | b :: rest =>
    .ok (vm.program_counter + 1,
      { vm with memory :=
          vm.memory.set vm.pointer (u8Cell.set_value (vm.memory.getD vm.pointer 0) b) },
      rest)

/-- `VM::write_value`: write the current cell's byte (`get_value`) through
the auto-newline wrapper.  The byte sink itself is modelled as infallible,
so the write/flush error paths do not arise. -/
def VM.write_value (vm : VM) (w : AutoNewlineWriter) :
    Except BrainfuckRuntimeError (Nat × AutoNewlineWriter) :=
  .ok (vm.program_counter + 1, w.write [u8Cell.get_value (vm.memory.getD vm.pointer 0)])

/-- `VM::begin_loop`: on a zero cell jump past the matching `EndLoop`
(`open_to_close.get(&pc).unwrap() + 1`, `none` modelling the panic when the
entry is missing); otherwise fall through. -/
def VM.begin_loop (vm : VM) : Option Nat :=
  if vm.memory.getD vm.pointer 0 = u8Cell.zero then
    (assocGet vm.open_to_close vm.program_counter).map fun close_idx => close_idx + 1
  else
    some (vm.program_counter + 1)

/-- `VM::end_loop`: on a non-zero cell jump back past the matching
`BeginLoop`; otherwise fall through. -/
def VM.end_loop (vm : VM) : Option Nat :=
  if ¬ vm.memory.getD vm.pointer 0 = u8Cell.zero then
    (assocGet vm.close_to_open vm.program_counter).map fun open_idx => open_idx + 1
  else
    some (vm.program_counter + 1)

/-- The full interpreter state: the machine, the remaining input bytes, the
auto-newline wrapper around the output sink, and a ghost trace of the
opcodes executed so far (most recent first) used only in statements. -/
structure ExecState where
  vm : VM
  input : List Nat
  writer : AutoNewlineWriter
  trace : List RawInstruction
deriving DecidableEq, Repr

/-- Outcome of running the interpreter loop for some steps. -/
inductive StepResult where
  | running (s : ExecState)
  | halted (s : ExecState)
  | failed (e : BrainfuckRuntimeError) (s : ExecState)
  | panicked
deriving DecidableEq, Repr

/-- One iteration of the `while` loop of `VM::interpret`: if the program
counter is past the end the loop exits normally; otherwise dispatch on the
current instruction, assign the returned program counter, and propagate the
first error (leaving the state as it was at the failure).  `panicked`
models the `unwrap` panics inside `begin_loop`/`end_loop`. -/
def step (s : ExecState) : StepResult :=
  if h : s.vm.program_counter < s.vm.instructions.length then
    match (s.vm.instructions.get ⟨s.vm.program_counter, h⟩).raw_instruction with
    | .moveLeft =>
      match s.vm.move_left with
      | .error e => .failed e s
      | .ok (pc, vm) =>
        .running { s with vm := { vm with program_counter := pc }, trace := .moveLeft :: s.trace }
    | .moveRight =>
      match s.vm.move_right with
      | .error e => .failed e s
      | .ok (pc, vm) =>
        .running { s with vm := { vm with program_counter := pc }, trace := .moveRight :: s.trace }
    | .increment =>
      match s.vm.increment with
      | .error e => .failed e s
      | .ok (pc, vm) =>
        .running { s with vm := { vm with program_counter := pc }, trace := .increment :: s.trace }
    | .decrement =>
      match s.vm.decrement with
      | .error e => .failed e s
      | .ok (pc, vm) =>
        .running { s with vm := { vm with program_counter := pc }, trace := .decrement :: s.trace }
    | .input =>
      match s.vm.read_value s.input with
      | .error e => .failed e s
      | .ok (pc, vm, input) =>
        .running { vm := { vm with program_counter := pc }, input := input, writer := s.writer, trace := .input :: s.trace }
    | .output =>
      match s.vm.write_value s.writer with
      | .error e => .failed e s
      | .ok (pc, w) =>
        .running { s with vm := { s.vm with program_counter := pc }, writer := w, trace := .output :: s.trace }
    | .beginLoop =>
      match s.vm.begin_loop with
      | none => .panicked
      | some pc =>
        .running { s with vm := { s.vm with program_counter := pc }, trace := .beginLoop :: s.trace }
    | .endLoop =>
      match s.vm.end_loop with
      | none => .panicked
      | some pc =>
        .running { s with vm := { s.vm with program_counter := pc }, trace := .endLoop :: s.trace }
  else
    .halted s

/-- Run the interpreter loop for at most `fuel` iterations. -/
def runFor : Nat → ExecState → StepResult
  | 0, s => .running s
  | fuel + 1, s =>
    match step s with
    | .running s₂ => runFor fuel s₂
    | r => r

/-- The starting state of `VM::interpret`: a fresh `AutoNewlineWriter`
around the sink and the given input stream. -/
def initState (vm : VM) (input : List Nat) : ExecState :=
  { vm := vm, input := input, writer := AutoNewlineWriter.new, trace := [] }

/-- `VM::interpret` with fuel: run the loop; on either exit path (normal
completion or first error) the `AutoNewlineWriter` goes out of scope and
its `Drop` finalizer runs. -/
def interpretFor (fuel : Nat) (s : ExecState) : StepResult :=
  match runFor fuel s with
  | .halted s₂ => .halted { s₂ with writer := s₂.writer.finalize }
  | .failed e s₂ => .failed e { s₂ with writer := s₂.writer.finalize }
  | r => r

/-- C3: on a tape of length `N` (pointer at the last index `N - 1`),
`move_right` fails with the pointer-overflow error when extension is
disabled; with extension enabled it succeeds, doubling the tape by
appending `N` zero cells (leaving the first `N` cells unchanged) and moving
the pointer to `N`; with the pointer strictly below `N - 1` it succeeds and
only increments the pointer. -/
theorem move_right_spec (vm : VM) (N : Nat) (hN : vm.memory.length = N)
    (hpos : 0 < N) :
    (vm.pointer = N - 1 → vm.can_extend = false →
      vm.move_right =
        .error (.cannotMoveRightError vm.file_path vm.currentInstruction)) ∧
    (vm.pointer = N - 1 → vm.can_extend = true →
      vm.move_right = .ok (vm.program_counter + 1,
        { vm with memory := vm.memory ++ List.replicate N 0, pointer := N })) ∧
    (vm.pointer < N - 1 →
      vm.move_right = .ok (vm.program_counter + 1,
        { vm with pointer := vm.pointer + 1 })) := by
  refine ⟨?_, ?_, ?_⟩
  · intro hp hc
    unfold VM.move_right
    rw [if_pos ⟨by omega, hc⟩]
  · intro hp hc
    unfold VM.move_right
    rw [if_neg (by simp [hc])]
    rw [if_pos (by omega)]
    have hptr : vm.pointer + 1 = N := by omega
    rw [hptr, hN]
    rfl
  · intro hp
    unfold VM.move_right
    rw [if_neg (by omega)]
    rw [if_neg (by omega)]

/-- Witness for C3: a one-cell extensible tape holding the value 7, and a
two-cell tape with the pointer below the edge. -/
theorem move_right_spec_witness :
    (VM.mk [7] 0 true 0 "" [] [] []).move_right =
      .ok (1, VM.mk [7, 0] 1 true 0 "" [] [] []) ∧
    (VM.mk [0, 0] 0 false 0 "" [] [] []).move_right =
      .ok (1, VM.mk [0, 0] 1 false 0 "" [] [] []) := by
  constructor
  · exact (move_right_spec (VM.mk [7] 0 true 0 "" [] [] []) 1 rfl (by omega)).2.1
      rfl rfl
  · exact (move_right_spec (VM.mk [0, 0] 0 false 0 "" [] [] []) 2 rfl (by omega)).2.2
      (by decide)

/-! ## Pointer range invariant (C6) -/

/-- The pointer-in-range invariant, read off every state that a run result
carries (`panicked` carries none). -/
def pointerInv : StepResult → Prop
  | .running s => s.vm.pointer < s.vm.memory.length
  | .halted s => s.vm.pointer < s.vm.memory.length
  | .failed _ s => s.vm.pointer < s.vm.memory.length
  | .panicked => True

theorem move_left_ok_inv {vm : VM} {pc : Nat} {vm₂ : VM}
    (h : vm.pointer < vm.memory.length) (hok : vm.move_left = .ok (pc, vm₂)) :
    vm₂.pointer < vm₂.memory.length := by
  unfold VM.move_left at hok
  split at hok
  · cases hok
  · injection hok with hok
    have h2 : ({ vm with pointer := vm.pointer - 1 } : VM) = vm₂ :=
      congrArg Prod.snd hok
    rw [← h2]
    show vm.pointer - 1 < vm.memory.length
    omega

theorem move_right_ok_inv {vm : VM} {pc : Nat} {vm₂ : VM}
    (h : vm.pointer < vm.memory.length) (hok : vm.move_right = .ok (pc, vm₂)) :
    vm₂.pointer < vm₂.memory.length := by
  unfold VM.move_right at hok
  split at hok
  · cases hok
  · injection hok with hok
    have h2 := congrArg Prod.snd hok
    simp only at h2
    rw [← h2]
    show vm.pointer + 1 <
      (if vm.pointer = vm.memory.length - 1 then
        vm.memory ++ List.replicate vm.memory.length u8Cell.zero
       else vm.memory).length
    by_cases hp : vm.pointer = vm.memory.length - 1
    · rw [if_pos hp, List.length_append, List.length_replicate]
      omega
    · rw [if_neg hp]
      omega

theorem increment_ok_inv {vm : VM} {pc : Nat} {vm₂ : VM}
    (h : vm.pointer < vm.memory.length) (hok : vm.increment = .ok (pc, vm₂)) :
    vm₂.pointer < vm₂.memory.length := by
  unfold VM.increment at hok
  injection hok with hok
  have h2 := congrArg Prod.snd hok
  simp only at h2
  rw [← h2]
  show vm.pointer <
    (vm.memory.set vm.pointer (u8Cell.increment (vm.memory.getD vm.pointer 0))).length
  rw [List.length_set]
  exact h

theorem decrement_ok_inv {vm : VM} {pc : Nat} {vm₂ : VM}
    (h : vm.pointer < vm.memory.length) (hok : vm.decrement = .ok (pc, vm₂)) :
    vm₂.pointer < vm₂.memory.length := by
  unfold VM.decrement at hok
  injection hok with hok
  have h2 := congrArg Prod.snd hok
  simp only at h2
  rw [← h2]
  show vm.pointer <
    (vm.memory.set vm.pointer (u8Cell.decrement (vm.memory.getD vm.pointer 0))).length
  rw [List.length_set]
  exact h

theorem read_value_ok_inv {vm : VM} {input : List Nat} {pc : Nat} {vm₂ : VM}
    {input₂ : List Nat} (h : vm.pointer < vm.memory.length)
    (hok : vm.read_value input = .ok (pc, vm₂, input₂)) :
    vm₂.pointer < vm₂.memory.length := by
  unfold VM.read_value at hok
  cases input with
  | nil => cases hok
  | cons b rest =>
    injection hok with hok
    have h2 := congrArg (fun pr => pr.2.1) hok
    simp only at h2
    rw [← h2]
    show vm.pointer <
      (vm.memory.set vm.pointer (u8Cell.set_value (vm.memory.getD vm.pointer 0) b)).length
    rw [List.length_set]
    exact h

/-- Every instruction handler preserves the pointer range, including the
error cases (which leave the state untouched). -/
theorem step_pointerInv (s : ExecState) (h : s.vm.pointer < s.vm.memory.length) :
    pointerInv (step s) := by
  unfold step
  split
  · rename_i hlt
    cases hri : (s.vm.instructions.get ⟨s.vm.program_counter, hlt⟩).raw_instruction
    case moveLeft =>
      cases hml : s.vm.move_left with
      | error e => exact h
      | ok pv =>
        obtain ⟨pc, vm₂⟩ := pv
        show vm₂.pointer < vm₂.memory.length
        exact move_left_ok_inv h hml
    case moveRight =>
      cases hmr : s.vm.move_right with
      | error e => exact h
      | ok pv =>
        obtain ⟨pc, vm₂⟩ := pv
        show vm₂.pointer < vm₂.memory.length
        exact move_right_ok_inv h hmr
    case increment =>
      cases hinc : s.vm.increment with
      | error e => exact h
      | ok pv =>
        obtain ⟨pc, vm₂⟩ := pv
        show vm₂.pointer < vm₂.memory.length
        exact increment_ok_inv h hinc
    case decrement =>
      cases hdec : s.vm.decrement with
      | error e => exact h
      | ok pv =>
        obtain ⟨pc, vm₂⟩ := pv
        show vm₂.pointer < vm₂.memory.length
        exact decrement_ok_inv h hdec
    case input =>
      cases hrd : s.vm.read_value s.input with
      | error e => exact h
      | ok pv =>
        obtain ⟨pc, vm₂, input₂⟩ := pv
        show vm₂.pointer < vm₂.memory.length
        exact read_value_ok_inv h hrd
    case output =>
      cases hwr : s.vm.write_value s.writer with
      | error e => exact h
      | ok pw =>
        obtain ⟨pc, w⟩ := pw
        show s.vm.pointer < s.vm.memory.length
        exact h
    case beginLoop =>
      cases hbl : s.vm.begin_loop with
      | none => trivial
      | some pc =>
        show s.vm.pointer < s.vm.memory.length
        exact h
    case endLoop =>
      cases hel : s.vm.end_loop with
      | none => trivial
      | some pc =>
        show s.vm.pointer < s.vm.memory.length
        exact h
  · exact h

theorem runFor_pointerInv : ∀ (n : Nat) (s : ExecState),
    s.vm.pointer < s.vm.memory.length → pointerInv (runFor n s) := by
  intro n
  induction n with
  | zero => intro s h; exact h
  | succ n ih =>
    intro s h
    have hstep := step_pointerInv s h
    unfold runFor
    cases hs : step s with
    | running s₂ =>
      apply ih
      rw [hs] at hstep
      exact hstep
    | halted s₂ => rw [hs] at hstep; exact hstep
    | failed e s₂ => rw [hs] at hstep; exact hstep
    | panicked => trivial

/-- C6: from a freshly constructed machine (pointer 0, memory length
`memory_size ≥ 1`), every state reachable by the interpreter loop — also
the state carried by an error outcome — keeps the pointer strictly inside
the tape. -/
theorem interpret_pointer_in_range (p : Program) (memory_size : Nat)
    (can_extend : Bool) (vm₀ : VM) (input : List Nat) (n : Nat)
    (hms : 0 < memory_size) (hnew : VM.new memory_size can_extend p = some vm₀) :
    pointerInv (runFor n (initState vm₀ input)) := by
  apply runFor_pointerInv
  unfold VM.new at hnew
  cases hb : buildBrackets p.instructions 0 [] [] with
  | none => rw [hb] at hnew; cases hnew
  | some sb =>
    rw [hb] at hnew
    injection hnew with hnew
    rw [← hnew]
    show (0 : Nat) < (List.replicate memory_size u8Cell.zero).length
    rw [List.length_replicate]
    exact hms

/-- Witness for C6: five steps of the program `"[]"` on a fresh 3-cell
machine. -/
theorem interpret_pointer_in_range_witness :
    pointerInv (runFor 5 (initState (VM.mk [0, 0, 0] 0 false 0 ""
      [Instruction.new 1 1 .beginLoop, Instruction.new 1 2 .endLoop]
      [(0, 1)] [(1, 0)]) [])) :=
  interpret_pointer_in_range (Program.new "" "[]") 3 false _ [] 5 (by omega) rfl

/-! ## Loop jumps (C2) and input (C7) -/

/-- C7: when the interpreter executes an `Input` instruction, exactly one
byte is requested from the source: on an exhausted source the step fails
with a read error carrying the source identifier and the failing
instruction (hence its row/column), the machine state, input and output
untouched; on a source `b :: rest` the step succeeds, stores `b` in the
current cell, consumes exactly `b` from the input, and advances the
program counter by 1. -/
theorem input_step_semantics (s : ExecState)
    (h : s.vm.program_counter < s.vm.instructions.length)
    (hri : (s.vm.instructions.get ⟨s.vm.program_counter, h⟩).raw_instruction = .input) :
    s.vm.currentInstruction = s.vm.instructions.get ⟨s.vm.program_counter, h⟩ ∧
    (s.input = [] →
      step s = .failed
        (.cannotReadInputError s.vm.file_path s.vm.currentInstruction) s) ∧
    (∀ b rest, s.input = b :: rest →
      step s = .running
        { vm := { s.vm with
            memory := s.vm.memory.set s.vm.pointer b
            program_counter := s.vm.program_counter + 1 }
          input := rest
          writer := s.writer
          trace := .input :: s.trace }) := by
  refine ⟨?_, ?_, ?_⟩
  · unfold VM.currentInstruction
    exact List.getD_eq_getElem s.vm.instructions _ h
  · intro hinput
    unfold step
    rw [dif_pos h, hri, hinput]
    rfl
  · intro b rest hinput
    unfold step
    rw [dif_pos h, hri, hinput]
    rfl

/-- Witness for C7: a one-instruction `","` program, once with the input
byte 65 and once with an exhausted input. -/
theorem input_step_semantics_witness :
    step (ExecState.mk (VM.mk [0] 0 false 0 "" [Instruction.new 1 1 .input] [] [])
        [65] AutoNewlineWriter.new []) =
      .running (ExecState.mk (VM.mk [65] 0 false 1 "" [Instruction.new 1 1 .input] [] [])
        [] AutoNewlineWriter.new [.input]) ∧
    step (ExecState.mk (VM.mk [0] 0 false 0 "" [Instruction.new 1 1 .input] [] [])
        [] AutoNewlineWriter.new []) =
      .failed (.cannotReadInputError "" (Instruction.new 1 1 .input))
        (ExecState.mk (VM.mk [0] 0 false 0 "" [Instruction.new 1 1 .input] [] [])
          [] AutoNewlineWriter.new []) := by
  constructor
  · exact (input_step_semantics
      (ExecState.mk (VM.mk [0] 0 false 0 "" [Instruction.new 1 1 .input] [] [])
        [65] AutoNewlineWriter.new []) (by decide) rfl).2.2 65 [] rfl
  · exact (input_step_semantics
      (ExecState.mk (VM.mk [0] 0 false 0 "" [Instruction.new 1 1 .input] [] [])
        [] AutoNewlineWriter.new []) (by decide) rfl).2.1 rfl

/-! ## A run with no executed Output still ends with one newline (C10) -/

/-- Invariant: as long as no `Output` instruction has been executed, the
auto-newline wrapper is still in its freshly constructed state. -/
def noOutputWriterInv : StepResult → Prop
  | .running s => RawInstruction.output ∉ s.trace → s.writer = AutoNewlineWriter.new
  | .halted s => RawInstruction.output ∉ s.trace → s.writer = AutoNewlineWriter.new
  | .failed _ s => RawInstruction.output ∉ s.trace → s.writer = AutoNewlineWriter.new
  | .panicked => True

theorem step_noOutputWriterInv (s : ExecState)
    (h : RawInstruction.output ∉ s.trace → s.writer = AutoNewlineWriter.new) :
    noOutputWriterInv (step s) := by
  unfold step
  split
  · rename_i hlt
    cases hri : (s.vm.instructions.get ⟨s.vm.program_counter, hlt⟩).raw_instruction
    case moveLeft =>
      cases hml : s.vm.move_left with
      | error e => exact h
      | ok pv =>
        obtain ⟨pc, vm₂⟩ := pv
        intro htr
        exact h fun hmem => htr (List.mem_cons_of_mem _ hmem)
    case moveRight =>
      cases hmr : s.vm.move_right with
      | error e => exact h
      | ok pv =>
        obtain ⟨pc, vm₂⟩ := pv
        intro htr
        exact h fun hmem => htr (List.mem_cons_of_mem _ hmem)
    case increment =>
      cases hinc : s.vm.increment with
      | error e => exact h
      | ok pv =>
        obtain ⟨pc, vm₂⟩ := pv
        intro htr
        exact h fun hmem => htr (List.mem_cons_of_mem _ hmem)
    case decrement =>
      cases hdec : s.vm.decrement with
      | error e => exact h
      | ok pv =>
        obtain ⟨pc, vm₂⟩ := pv
        intro htr
        exact h fun hmem => htr (List.mem_cons_of_mem _ hmem)
    case input =>
      cases hrd : s.vm.read_value s.input with
      | error e => exact h
      | ok pv =>
        obtain ⟨pc, vm₂, input₂⟩ := pv
        intro htr
        exact h fun hmem => htr (List.mem_cons_of_mem _ hmem)
    case output =>
      cases hwr : s.vm.write_value s.writer with
      | error e => exact h
      | ok pw =>
        obtain ⟨pc, w⟩ := pw
        intro htr
        exact absurd (List.mem_cons_self _ _) htr
    case beginLoop =>
      cases hbl : s.vm.begin_loop with
      | none => trivial
      | some pc =>
        intro htr
        exact h fun hmem => htr (List.mem_cons_of_mem _ hmem)
    case endLoop =>
      cases hel : s.vm.end_loop with
      | none => trivial
      | some pc =>
        intro htr
        exact h fun hmem => htr (List.mem_cons_of_mem _ hmem)
  · exact h

theorem runFor_noOutputWriterInv : ∀ (n : Nat) (s : ExecState),
    (RawInstruction.output ∉ s.trace → s.writer = AutoNewlineWriter.new) →
    noOutputWriterInv (runFor n s) := by
  intro n
  induction n with
  | zero => intro s h; exact h
  | succ n ih =>
    intro s h
    have hstep := step_noOutputWriterInv s h
    unfold runFor
    cases hs : step s with
    | running s₂ =>
      apply ih
      rw [hs] at hstep
      exact hstep
    | halted s₂ => rw [hs] at hstep; exact hstep
    | failed e s₂ => rw [hs] at hstep; exact hstep
    | panicked => trivial

/-- C10: if a run of `interpret` from a fresh writer returns — normally or
with an error — without ever having executed an `Output` instruction, the
`Drop` finalizer still appends exactly one newline, so the sink holds
exactly the single byte 10. -/
theorem no_output_final_newline (vm₀ : VM) (input : List Nat) (fuel : Nat) :
    (∀ s, interpretFor fuel (initState vm₀ input) = .halted s →
      RawInstruction.output ∉ s.trace → s.writer.written = [10]) ∧
    (∀ e s, interpretFor fuel (initState vm₀ input) = .failed e s →
      RawInstruction.output ∉ s.trace → s.writer.written = [10]) := by
  have hinv := runFor_noOutputWriterInv fuel (initState vm₀ input) (fun _ => rfl)
  constructor
  · intro s hs htr
    unfold interpretFor at hs
    cases hrun : runFor fuel (initState vm₀ input) with
    | running s₂ => rw [hrun] at hs; cases hs
    | panicked => rw [hrun] at hs; cases hs
    | failed e s₂ => rw [hrun] at hs; cases hs
    | halted s₂ =>
      rw [hrun] at hs
      injection hs with hs
      rw [hrun] at hinv
      subst hs
      have hw : s₂.writer = AutoNewlineWriter.new := hinv htr
      show (s₂.writer.finalize).written = [10]
      rw [hw]
      rfl
  · intro e s hs htr
    unfold interpretFor at hs
    cases hrun : runFor fuel (initState vm₀ input) with
    | running s₂ => rw [hrun] at hs; cases hs
    | panicked => rw [hrun] at hs; cases hs
    | halted s₂ => rw [hrun] at hs; cases hs
    | failed e₂ s₂ =>
      rw [hrun] at hs
      injection hs with he hs
      rw [hrun] at hinv
      subst hs
      have hw : s₂.writer = AutoNewlineWriter.new := hinv htr
      show (s₂.writer.finalize).written = [10]
      rw [hw]
      rfl

/-- Witness for C10: the empty program halts immediately and its sink holds
exactly one newline byte. -/
theorem no_output_final_newline_witness :
    (ExecState.mk (VM.mk [0] 0 false 0 "" [] [] []) []
      (AutoNewlineWriter.mk [10] true) []).writer.written = [10] :=
  (no_output_final_newline (VM.mk [0] 0 false 0 "" [] [] []) [] 1).1
    (ExecState.mk (VM.mk [0] 0 false 0 "" [] [] []) []
      (AutoNewlineWriter.mk [10] true) [])
    rfl (by decide)

/-! ## Validated programs never panic in `VM::new` or the loop jumps (C9) -/

theorem buildBrackets_dyck : ∀ (l : List Instruction) (idx : Nat) (stack : List Nat)
    (acc : List (Nat × Nat)) (m : Nat),
    dyckScan stack.length (bracketsOf l) = some m →
    ∃ stack₂ acc₂, buildBrackets l idx stack acc = some (stack₂, acc₂) ∧
      stack₂.length = m := by
  intro l
  induction l with
  | nil =>
    intro idx stack acc m h
    rw [show bracketsOf [] = [] from rfl, dyckScan_nil] at h
    injection h with h
    exact ⟨stack, acc, rfl, h⟩
  | cons ins rest ih =>
    intro idx stack acc m h
    by_cases hb : ins.raw_instruction = .beginLoop
    · rw [show bracketsOf (ins :: rest) = true :: bracketsOf rest from by
        simp [bracketsOf, hb], dyckScan_true] at h
      rw [show buildBrackets (ins :: rest) idx stack acc =
          buildBrackets rest (idx + 1) (idx :: stack) acc from by
        simp [buildBrackets, hb]]
      exact ih (idx + 1) (idx :: stack) acc m (by simpa using h)
    · by_cases he : ins.raw_instruction = .endLoop
      · rw [show bracketsOf (ins :: rest) = false :: bracketsOf rest from by
          simp [bracketsOf, hb, he]] at h
        cases stack with
        | nil =>
          rw [List.length_nil, dyckScan_false_zero] at h
          cases h
        | cons o stack =>
          rw [List.length_cons, dyckScan_false_succ] at h
          rw [show buildBrackets (ins :: rest) idx (o :: stack) acc =
              buildBrackets rest (idx + 1) stack ((o, idx) :: acc) from by
            simp [buildBrackets, hb, he]]
          exact ih (idx + 1) stack ((o, idx) :: acc) m h
      · rw [show bracketsOf (ins :: rest) = bracketsOf rest from by
          simp [bracketsOf, hb, he]] at h
        rw [show buildBrackets (ins :: rest) idx stack acc =
            buildBrackets rest (idx + 1) stack acc from by
          simp [buildBrackets, hb, he]]
        exact ih (idx + 1) stack acc m h

theorem buildBrackets_acc_mono : ∀ (l : List Instruction) (idx : Nat)
    (stack : List Nat) (acc : List (Nat × Nat)) (stack₂ : List Nat)
    (acc₂ : List (Nat × Nat)),
    buildBrackets l idx stack acc = some (stack₂, acc₂) →
    ∀ pr ∈ acc, pr ∈ acc₂ := by
  intro l
  induction l with
  | nil =>
    intro idx stack acc stack₂ acc₂ h pr hpr
    injection h with h
    have h2 : acc = acc₂ := congrArg Prod.snd h
    rw [← h2]
    exact hpr
  | cons ins rest ih =>
    intro idx stack acc stack₂ acc₂ h pr hpr
    by_cases hb : ins.raw_instruction = .beginLoop
    · rw [show buildBrackets (ins :: rest) idx stack acc =
          buildBrackets rest (idx + 1) (idx :: stack) acc from by
        simp [buildBrackets, hb]] at h
      exact ih (idx + 1) (idx :: stack) acc stack₂ acc₂ h pr hpr
    · by_cases he : ins.raw_instruction = .endLoop
      · cases stack with
        | nil =>
          rw [show buildBrackets (ins :: rest) idx [] acc = none from by
            simp [buildBrackets, hb, he]] at h
          cases h
        | cons o stack =>
          rw [show buildBrackets (ins :: rest) idx (o :: stack) acc =
              buildBrackets rest (idx + 1) stack ((o, idx) :: acc) from by
            simp [buildBrackets, hb, he]] at h
          exact ih (idx + 1) stack ((o, idx) :: acc) stack₂ acc₂ h pr
            (List.mem_cons_of_mem _ hpr)
      · rw [show buildBrackets (ins :: rest) idx stack acc =
            buildBrackets rest (idx + 1) stack acc from by
          simp [buildBrackets, hb, he]] at h
        exact ih (idx + 1) stack acc stack₂ acc₂ h pr hpr

theorem buildBrackets_stack_covered : ∀ (l : List Instruction) (idx : Nat)
    (stack : List Nat) (acc : List (Nat × Nat)) (stack₂ : List Nat)
    (acc₂ : List (Nat × Nat)),
    buildBrackets l idx stack acc = some (stack₂, acc₂) →
    ∀ x ∈ stack, x ∈ stack₂ ∨ x ∈ acc₂.map Prod.fst := by
  intro l
  induction l with
  | nil =>
    intro idx stack acc stack₂ acc₂ h x hx
    injection h with h
    have h2 : stack = stack₂ := congrArg Prod.fst h
    rw [← h2]
    exact .inl hx
  | cons ins rest ih =>
    intro idx stack acc stack₂ acc₂ h x hx
    by_cases hb : ins.raw_instruction = .beginLoop
    · rw [show buildBrackets (ins :: rest) idx stack acc =
          buildBrackets rest (idx + 1) (idx :: stack) acc from by
        simp [buildBrackets, hb]] at h
      exact ih (idx + 1) (idx :: stack) acc stack₂ acc₂ h x
        (List.mem_cons_of_mem _ hx)
    · by_cases he : ins.raw_instruction = .endLoop
      · cases stack with
        | nil => cases hx
        | cons o stack =>
          rw [show buildBrackets (ins :: rest) idx (o :: stack) acc =
              buildBrackets rest (idx + 1) stack ((o, idx) :: acc) from by
            simp [buildBrackets, hb, he]] at h
          rcases List.mem_cons.mp hx with hxo | hxs
          · subst hxo
            have hm : (x, idx) ∈ acc₂ :=
              buildBrackets_acc_mono rest (idx + 1) stack ((x, idx) :: acc)
                stack₂ acc₂ h (x, idx) (List.mem_cons_self _ _)
            exact .inr (List.mem_map.mpr ⟨(x, idx), hm, rfl⟩)
          · exact ih (idx + 1) stack ((o, idx) :: acc) stack₂ acc₂ h x hxs
      · rw [show buildBrackets (ins :: rest) idx stack acc =
            buildBrackets rest (idx + 1) stack acc from by
          simp [buildBrackets, hb, he]] at h
        exact ih (idx + 1) stack acc stack₂ acc₂ h x hx

theorem buildBrackets_begin_covered : ∀ (l : List Instruction) (idx : Nat)
    (stack : List Nat) (acc : List (Nat × Nat)) (stack₂ : List Nat)
    (acc₂ : List (Nat × Nat)),
    buildBrackets l idx stack acc = some (stack₂, acc₂) →
    ∀ k (hk : k < l.length), (l.get ⟨k, hk⟩).raw_instruction = .beginLoop →
      (idx + k) ∈ stack₂ ∨ (idx + k) ∈ acc₂.map Prod.fst := by
  intro l
  induction l with
  | nil =>
    intro idx stack acc stack₂ acc₂ h k hk
    exact absurd hk (by simp)
  | cons ins rest ih =>
    intro idx stack acc stack₂ acc₂ h k hk hins
    by_cases hb : ins.raw_instruction = .beginLoop
    · rw [show buildBrackets (ins :: rest) idx stack acc =
          buildBrackets rest (idx + 1) (idx :: stack) acc from by
        simp [buildBrackets, hb]] at h
      cases k with
      | zero =>
        have := buildBrackets_stack_covered rest (idx + 1) (idx :: stack) acc
          stack₂ acc₂ h idx (List.mem_cons_self _ _)
        simpa using this
      | succ k =>
        have hins₂ : (rest.get ⟨k, by simpa using hk⟩).raw_instruction = .beginLoop :=
          hins
        have := ih (idx + 1) (idx :: stack) acc stack₂ acc₂ h k
          (by simpa using hk) hins₂
        rw [show idx + (k + 1) = (idx + 1) + k from by omega]
        exact this
    · by_cases he : ins.raw_instruction = .endLoop
      · cases stack with
        | nil =>
          rw [show buildBrackets (ins :: rest) idx [] acc = none from by
            simp [buildBrackets, hb, he]] at h
          cases h
        | cons o stack =>
          rw [show buildBrackets (ins :: rest) idx (o :: stack) acc =
              buildBrackets rest (idx + 1) stack ((o, idx) :: acc) from by
            simp [buildBrackets, hb, he]] at h
          cases k with
          | zero => exact absurd hins hb
          | succ k =>
            have hins₂ : (rest.get ⟨k, by simpa using hk⟩).raw_instruction =
                .beginLoop := hins
            have := ih (idx + 1) stack ((o, idx) :: acc) stack₂ acc₂ h k
              (by simpa using hk) hins₂
            rw [show idx + (k + 1) = (idx + 1) + k from by omega]
            exact this
      · rw [show buildBrackets (ins :: rest) idx stack acc =
            buildBrackets rest (idx + 1) stack acc from by
          simp [buildBrackets, hb, he]] at h
        cases k with
        | zero => exact absurd hins hb
        | succ k =>
          have hins₂ : (rest.get ⟨k, by simpa using hk⟩).raw_instruction =
              .beginLoop := hins
          have := ih (idx + 1) stack acc stack₂ acc₂ h k (by simpa using hk) hins₂
          rw [show idx + (k + 1) = (idx + 1) + k from by omega]
          exact this

theorem buildBrackets_end_covered : ∀ (l : List Instruction) (idx : Nat)
    (stack : List Nat) (acc : List (Nat × Nat)) (stack₂ : List Nat)
    (acc₂ : List (Nat × Nat)),
    buildBrackets l idx stack acc = some (stack₂, acc₂) →
    ∀ k (hk : k < l.length), (l.get ⟨k, hk⟩).raw_instruction = .endLoop →
      (idx + k) ∈ acc₂.map Prod.snd := by
  intro l
  induction l with
  | nil =>
    intro idx stack acc stack₂ acc₂ h k hk
    exact absurd hk (by simp)
  | cons ins rest ih =>
    intro idx stack acc stack₂ acc₂ h k hk hins
    by_cases hb : ins.raw_instruction = .beginLoop
    · rw [show buildBrackets (ins :: rest) idx stack acc =
          buildBrackets rest (idx + 1) (idx :: stack) acc from by
        simp [buildBrackets, hb]] at h
      cases k with
      | zero =>
        have hins₀ : ins.raw_instruction = RawInstruction.endLoop := hins
        rw [hb] at hins₀
        exact RawInstruction.noConfusion hins₀
      | succ k =>
        have hins₂ : (rest.get ⟨k, by simpa using hk⟩).raw_instruction =
            .endLoop := hins
        have := ih (idx + 1) (idx :: stack) acc stack₂ acc₂ h k
          (by simpa using hk) hins₂
        rw [show idx + (k + 1) = (idx + 1) + k from by omega]
        exact this
    · by_cases he : ins.raw_instruction = .endLoop
      · cases stack with
        | nil =>
          rw [show buildBrackets (ins :: rest) idx [] acc = none from by
            simp [buildBrackets, hb, he]] at h
          cases h
        | cons o stack =>
          rw [show buildBrackets (ins :: rest) idx (o :: stack) acc =
              buildBrackets rest (idx + 1) stack ((o, idx) :: acc) from by
            simp [buildBrackets, hb, he]] at h
          cases k with
          | zero =>
            have hm : (o, idx) ∈ acc₂ :=
              buildBrackets_acc_mono rest (idx + 1) stack ((o, idx) :: acc)
                stack₂ acc₂ h (o, idx) (List.mem_cons_self _ _)
            have : idx ∈ acc₂.map Prod.snd := List.mem_map.mpr ⟨(o, idx), hm, rfl⟩
            simpa using this
          | succ k =>
            have hins₂ : (rest.get ⟨k, by simpa using hk⟩).raw_instruction =
                .endLoop := hins
            have := ih (idx + 1) stack ((o, idx) :: acc) stack₂ acc₂ h k
              (by simpa using hk) hins₂
            rw [show idx + (k + 1) = (idx + 1) + k from by omega]
            exact this
      · rw [show buildBrackets (ins :: rest) idx stack acc =
            buildBrackets rest (idx + 1) stack acc from by
          simp [buildBrackets, hb, he]] at h
        cases k with
        | zero => exact absurd hins he
        | succ k =>
          have hins₂ : (rest.get ⟨k, by simpa using hk⟩).raw_instruction =
              .endLoop := hins
          have := ih (idx + 1) stack acc stack₂ acc₂ h k (by simpa using hk) hins₂
          rw [show idx + (k + 1) = (idx + 1) + k from by omega]
          exact this

theorem assocGet_isSome_of_mem : ∀ (m : List (Nat × Nat)) (k : Nat),
    k ∈ m.map Prod.fst → (assocGet m k).isSome := by
  intro m
  induction m with
  | nil => intro k h; simp at h
  | cons pr rest ih =>
    intro k h
    by_cases hk : pr.1 = k
    · simp [assocGet, List.find?_cons, hk]
    · have hmem : k ∈ rest.map Prod.fst := by
        rw [List.map_cons] at h
        rcases List.mem_cons.mp h with hh | hh
        · exact absurd hh.symm hk
        · exact hh
      have := ih k hmem
      simpa [assocGet, List.find?_cons, hk] using this

/-- C9: for every program accepted by `validate`, VM construction never
panics — the `stack.pop().unwrap()` of the jump-table loop always succeeds,
so `VM::new` returns a machine — and the jump tables are total on the
brackets: every `BeginLoop` index is a key of `open_to_close` and every
`EndLoop` index a key of `close_to_open`, so the `unwrap`ped lookups of
`begin_loop`/`end_loop` always find an entry. -/
theorem validated_no_panic (p : Program) (memory_size : Nat) (can_extend : Bool)
    (hok : p.validate = .ok ()) :
    (VM.new memory_size can_extend p).isSome ∧
    ∀ vm₀, VM.new memory_size can_extend p = some vm₀ →
      (∀ k (hk : k < p.instructions.length),
        (p.instructions.get ⟨k, hk⟩).raw_instruction = .beginLoop →
          (assocGet vm₀.open_to_close k).isSome) ∧
      (∀ k (hk : k < p.instructions.length),
        (p.instructions.get ⟨k, hk⟩).raw_instruction = .endLoop →
          (assocGet vm₀.close_to_open k).isSome) := by
  have hd : dyckScan 0 (bracketsOf p.instructions) = some 0 :=
    (validate_ok_iff_dyckScan p).mp hok
  obtain ⟨stack₂, acc₂, hbb, hlen⟩ :=
    buildBrackets_dyck p.instructions 0 [] [] 0 (by simpa using hd)
  have hstack : stack₂ = [] := List.length_eq_zero.mp hlen
  subst hstack
  constructor
  · unfold VM.new
    rw [hbb]
    rfl
  · intro vm₀ hvm
    unfold VM.new at hvm
    rw [hbb] at hvm
    injection hvm with hvm
    subst hvm
    constructor
    · intro k hk hins
      rcases buildBrackets_begin_covered p.instructions 0 [] [] [] acc₂ hbb k hk
        hins with hmem | hmem
      · cases hmem
      · show (assocGet acc₂ k).isSome
        exact assocGet_isSome_of_mem acc₂ k (by simpa using hmem)
    · intro k hk hins
      have hmem := buildBrackets_end_covered p.instructions 0 [] [] [] acc₂ hbb
        k hk hins
      show (assocGet (acc₂.map fun pr => (pr.2, pr.1)) k).isSome
      apply assocGet_isSome_of_mem
      rw [List.map_map]
      simpa using hmem

/-- Witness for C9 on the validated program `"[]"`: construction succeeds
and both jump-table lookups are present. -/
theorem validated_no_panic_witness :
    (VM.new 2 false (Program.new "" "[]")).isSome ∧
    (assocGet [(0, 1)] 0).isSome ∧ (assocGet [(1, 0)] 1).isSome := by
  obtain ⟨h1, h2⟩ := validated_no_panic (Program.new "" "[]") 2 false rfl
  obtain ⟨hb, he⟩ := h2 (VM.mk [0, 0] 0 false 0 ""
    [Instruction.new 1 1 .beginLoop, Instruction.new 1 2 .endLoop]
    [(0, 1)] [(1, 0)]) rfl
  exact ⟨h1, hb 0 (by decide) rfl, he 1 (by decide) rfl⟩

/-! ## Bracket matching: segments and the matching relation (C2, C8) -/

/-- The opcode stored at position `i` of an instruction list. -/
def instrAt (l : List Instruction) (i : Nat) : Option RawInstruction :=
  (l[i]?).map Instruction.raw_instruction

/-- The bracket word of the index segment `[a, b)` of an instruction
list. -/
def segBrackets (l : List Instruction) (a b : Nat) : List Bool :=
  bracketsOf ((l.drop a).take (b - a))

/-- `j` is the matching close bracket of the open bracket at `i`: the
instruction at `i` is a `BeginLoop`, the one at `j` a later `EndLoop`, and
the brackets strictly between them are balanced. -/
def IsMatch (instrs : List Instruction) (i j : Nat) : Prop :=
  i < j ∧ instrAt instrs i = some .beginLoop ∧ instrAt instrs j = some .endLoop ∧
  Balanced (segBrackets instrs (i + 1) j)

theorem instrAt_eq_some {l : List Instruction} {i : Nat} {r : RawInstruction}
    (h : instrAt l i = some r) :
    ∃ ins, l[i]? = some ins ∧ ins.raw_instruction = r := by
  unfold instrAt at h
  cases hg : l[i]? with
  | none => rw [hg] at h; cases h
  | some ins => rw [hg] at h; injection h with h; exact ⟨ins, rfl, h⟩

theorem bracketsOf_append (l₁ l₂ : List Instruction) :
    bracketsOf (l₁ ++ l₂) = bracketsOf l₁ ++ bracketsOf l₂ := by
  unfold bracketsOf
  exact List.filterMap_append l₁ l₂ _

theorem bracketsOf_single_begin {ins : Instruction}
    (h : ins.raw_instruction = .beginLoop) : bracketsOf [ins] = [true] := by
  simp [bracketsOf, h]

theorem bracketsOf_single_end {ins : Instruction}
    (h : ins.raw_instruction = .endLoop) : bracketsOf [ins] = [false] := by
  simp [bracketsOf, h]

theorem bracketsOf_single_skip {ins : Instruction}
    (hb : ¬ ins.raw_instruction = .beginLoop)
    (he : ¬ ins.raw_instruction = .endLoop) : bracketsOf [ins] = [] := by
  simp [bracketsOf, hb, he]

theorem segBrackets_empty (l : List Instruction) (a : Nat) :
    segBrackets l a a = [] := by
  unfold segBrackets
  rw [Nat.sub_self]
  rfl

theorem segBrackets_concat (l : List Instruction) (a mid b : Nat)
    (h₁ : a ≤ mid) (h₂ : mid ≤ b) :
    segBrackets l a b = segBrackets l a mid ++ segBrackets l mid b := by
  unfold segBrackets
  rw [← bracketsOf_append]
  have hb : b - a = (mid - a) + (b - mid) := by omega
  rw [hb, List.take_add, List.drop_drop, show a + (mid - a) = mid from by omega]

theorem segBrackets_cons (l : List Instruction) (mid b : Nat) (insm : Instruction)
    (h₂ : mid < b) (hget : l[mid]? = some insm) :
    segBrackets l mid b = bracketsOf [insm] ++ segBrackets l (mid + 1) b := by
  unfold segBrackets
  obtain ⟨hmlt, hval⟩ := List.getElem?_eq_some.mp hget
  have hdrop : l.drop mid = insm :: l.drop (mid + 1) := by
    rw [List.drop_eq_getElem_cons hmlt, hval]
  rw [hdrop, show b - mid = (b - (mid + 1)) + 1 from by omega, List.take_succ_cons,
    show insm :: (l.drop (mid + 1)).take (b - (mid + 1)) =
      [insm] ++ (l.drop (mid + 1)).take (b - (mid + 1)) from rfl,
    bracketsOf_append]

theorem segBrackets_split (l : List Instruction) (a mid b : Nat)
    (insm : Instruction) (h₁ : a ≤ mid) (h₂ : mid < b)
    (hget : l[mid]? = some insm) :
    segBrackets l a b =
      segBrackets l a mid ++ bracketsOf [insm] ++ segBrackets l (mid + 1) b := by
  rw [segBrackets_concat l a mid b h₁ (by omega),
    segBrackets_cons l mid b insm h₂ hget, List.append_assoc]

theorem segBrackets_whole (l : List Instruction) :
    segBrackets l 0 l.length = bracketsOf l := by
  unfold segBrackets
  rw [List.drop_zero, Nat.sub_zero, List.take_length]

theorem dyckScan_append_true {w : List Bool} {t : Nat}
    (h : dyckScan 0 w = some t) : dyckScan 0 (w ++ [true]) = some (t + 1) := by
  rw [dyckScan_append, h]
  rfl

theorem dyckScan_append_false {w : List Bool} {t : Nat}
    (h : dyckScan 0 w = some (t + 1)) : dyckScan 0 (w ++ [false]) = some t := by
  rw [dyckScan_append, h]
  rfl

theorem getLast?_cons_cases {α : Type} {a : α} {l : List α} {b : α}
    (h : (a :: l).getLast? = some b) :
    (l = [] ∧ b = a) ∨ l.getLast? = some b := by
  cases l with
  | nil =>
    left
    refine ⟨rfl, ?_⟩
    injection h with h
    exact h.symm
  | cons x xs =>
    right
    rw [← List.getLast?_cons_cons (a := a)]
    exact h

theorem drop_cons_get {full : List Instruction} {idx : Nat} {ins : Instruction}
    {rest : List Instruction} (hl : full.drop idx = ins :: rest) :
    full[idx]? = some ins := by
  have h0 := List.getElem?_drop full idx 0
  rw [hl] at h0
  simpa using h0.symm

theorem drop_cons_succ {full : List Instruction} {idx : Nat} {ins : Instruction}
    {rest : List Instruction} (hl : full.drop idx = ins :: rest) :
    full.drop (idx + 1) = rest := by
  have h := List.tail_drop full idx
  rw [hl] at h
  exact h.symm

theorem IsMatch_unique_right_aux (instrs : List Instruction) (i j j₂ : Nat)
    (h : IsMatch instrs i j) (h₂ : IsMatch instrs i j₂) (hlt : j < j₂) :
    False := by
  obtain ⟨hij, hbi, hej, hbal⟩ := h
  obtain ⟨hij₂, hbi₂, hej₂, hbal₂⟩ := h₂
  obtain ⟨insj, hgj, hrj⟩ := instrAt_eq_some hej
  have hsplit : segBrackets instrs (i + 1) j₂ =
      segBrackets instrs (i + 1) j ++ bracketsOf [insj] ++
        segBrackets instrs (j + 1) j₂ :=
    segBrackets_split instrs (i + 1) j j₂ insj (by omega) hlt hgj
  have hscan : dyckScan 0 (segBrackets instrs (i + 1) j) = some 0 :=
    balanced_dyckScan hbal 0
  have hscan₂ : dyckScan 0 (segBrackets instrs (i + 1) j₂) = some 0 :=
    balanced_dyckScan hbal₂ 0
  rw [hsplit, bracketsOf_single_end hrj, List.append_assoc, dyckScan_append,
    hscan] at hscan₂
  have h4 : dyckScan 0 (false :: segBrackets instrs (j + 1) j₂) = some 0 :=
    hscan₂
  rw [dyckScan_false_zero] at h4
  cases h4

theorem IsMatch_unique_left_aux (instrs : List Instruction) (i i₂ j : Nat)
    (h : IsMatch instrs i j) (h₂ : IsMatch instrs i₂ j) (hlt : i < i₂) :
    False := by
  obtain ⟨hij, hbi, hej, hbal⟩ := h
  obtain ⟨hij₂, hbi₂, hej₂, hbal₂⟩ := h₂
  obtain ⟨insi, hgi, hri⟩ := instrAt_eq_some hbi₂
  have hsplit : segBrackets instrs (i + 1) j =
      segBrackets instrs (i + 1) i₂ ++ bracketsOf [insi] ++
        segBrackets instrs (i₂ + 1) j :=
    segBrackets_split instrs (i + 1) i₂ j insi (by omega) hij₂ hgi
  have hscan : dyckScan 0 (segBrackets instrs (i + 1) j) = some 0 :=
    balanced_dyckScan hbal 0
  rw [hsplit, bracketsOf_single_begin hri, List.append_assoc,
    dyckScan_append] at hscan
  cases hc : dyckScan 0 (segBrackets instrs (i + 1) i₂) with
  | none => rw [hc] at hscan; cases hscan
  | some c =>
    rw [hc] at hscan
    have h4 : dyckScan c (true :: segBrackets instrs (i₂ + 1) j) = some 0 :=
      hscan
    rw [dyckScan_true] at h4
    have h5 : dyckScan 0 (segBrackets instrs (i₂ + 1) j) = some 0 :=
      balanced_dyckScan hbal₂ 0
    have h6 := dyckScan_shift h5 (c + 1)
    simp only [Nat.zero_add] at h6
    rw [h4] at h6
    injection h6 with h6
    omega

theorem IsMatch_unique_right (instrs : List Instruction) (i j j₂ : Nat)
    (h : IsMatch instrs i j) (h₂ : IsMatch instrs i j₂) : j = j₂ := by
  rcases Nat.lt_trichotomy j j₂ with hlt | heq | hlt
  · exact absurd (IsMatch_unique_right_aux instrs i j j₂ h h₂ hlt) (by simp)
  · exact heq
  · exact absurd (IsMatch_unique_right_aux instrs i j₂ j h₂ h hlt) (by simp)

theorem IsMatch_unique_left (instrs : List Instruction) (i i₂ j : Nat)
    (h : IsMatch instrs i j) (h₂ : IsMatch instrs i₂ j) : i = i₂ := by
  rcases Nat.lt_trichotomy i i₂ with hlt | heq | hlt
  · exact absurd (IsMatch_unique_left_aux instrs i i₂ j h h₂ hlt) (by simp)
  · exact heq
  · exact absurd (IsMatch_unique_left_aux instrs i₂ i j h₂ h hlt) (by simp)

/-- Decompose an instruction list along a decomposition of its bracket
word: the bracket at the split point comes from a bracket instruction, and
the pieces have exactly the split bracket words. -/
theorem bracketsOf_decomp : ∀ (l : List Instruction) (u : List Bool) (x : Bool)
    (v : List Bool), bracketsOf l = u ++ x :: v →
    ∃ l₁ ins l₂, l = l₁ ++ ins :: l₂ ∧ bracketsOf l₁ = u ∧
      (x = true → ins.raw_instruction = .beginLoop) ∧
      (x = false → ins.raw_instruction = .endLoop) ∧
      bracketsOf l₂ = v := by
  intro l
  induction l with
  | nil =>
    intro u x v h
    rw [show bracketsOf [] = [] from rfl] at h
    exact absurd h (by simp)
  | cons ins rest ih =>
    intro u x v h
    by_cases hb : ins.raw_instruction = .beginLoop
    · rw [show bracketsOf (ins :: rest) = true :: bracketsOf rest from by
        simp [bracketsOf, hb]] at h
      cases u with
      | nil =>
        rw [List.nil_append] at h
        injection h with h1 h2
        refine ⟨[], ins, rest, rfl, rfl, fun _ => hb, fun hx => ?_, h2⟩
        rw [hx] at h1
        cases h1
      | cons u0 u₂ =>
        rw [List.cons_append] at h
        injection h with h1 h2
        obtain ⟨l₁, insm, l₂, hl, hlu, hxb, hxe, hlv⟩ := ih u₂ x v h2
        refine ⟨ins :: l₁, insm, l₂, by rw [hl, List.cons_append], ?_, hxb, hxe, hlv⟩
        rw [show bracketsOf (ins :: l₁) = true :: bracketsOf l₁ from by
          simp [bracketsOf, hb], hlu, h1]
    · by_cases he : ins.raw_instruction = .endLoop
      · rw [show bracketsOf (ins :: rest) = false :: bracketsOf rest from by
          simp [bracketsOf, hb, he]] at h
        cases u with
        | nil =>
          rw [List.nil_append] at h
          injection h with h1 h2
          refine ⟨[], ins, rest, rfl, rfl, fun hx => ?_, fun _ => he, h2⟩
          rw [hx] at h1
          cases h1
        | cons u0 u₂ =>
          rw [List.cons_append] at h
          injection h with h1 h2
          obtain ⟨l₁, insm, l₂, hl, hlu, hxb, hxe, hlv⟩ := ih u₂ x v h2
          refine ⟨ins :: l₁, insm, l₂, by rw [hl, List.cons_append], ?_, hxb, hxe,
            hlv⟩
          rw [show bracketsOf (ins :: l₁) = false :: bracketsOf l₁ from by
            simp [bracketsOf, hb, he], hlu, h1]
      · rw [show bracketsOf (ins :: rest) = bracketsOf rest from by
          simp [bracketsOf, hb, he]] at h
        obtain ⟨l₁, insm, l₂, hl, hlu, hxb, hxe, hlv⟩ := ih u x v h
        refine ⟨ins :: l₁, insm, l₂, by rw [hl, List.cons_append], ?_, hxb, hxe,
          hlv⟩
        rw [show bracketsOf (ins :: l₁) = bracketsOf l₁ from by
          simp [bracketsOf, hb, he], hlu]

/-- Recover absolute positions from a decomposition of the instruction
segment `[a, a + n)`. -/
theorem seg_decomp_index (full : List Instruction) (a n : Nat)
    (S₁ : List Instruction) (ins : Instruction) (S₂ : List Instruction)
    (hS : (full.drop a).take n = S₁ ++ ins :: S₂) :
    full[a + S₁.length]? = some ins ∧
    (full.drop a).take S₁.length = S₁ ∧ S₁.length < n := by
  have hlen : S₁.length < n := by
    have h1 : ((full.drop a).take n).length ≤ n := by
      rw [List.length_take]
      omega
    rw [hS, List.length_append, List.length_cons] at h1
    omega
  refine ⟨?_, ?_, hlen⟩
  · have h2 : ((full.drop a).take n)[S₁.length]? = some ins := by
      rw [hS, List.getElem?_append_right (Nat.le_refl S₁.length), Nat.sub_self]
      simp
    rw [List.getElem?_take, if_pos hlen, List.getElem?_drop] at h2
    exact h2
  · have h3 := congrArg (fun l => List.take S₁.length l) hS
    simp only at h3
    rw [List.take_take, Nat.min_eq_left (by omega), List.take_left] at h3
    exact h3

/-- Every `BeginLoop` strictly before a position whose prefix counter is
zero has a matching `EndLoop`. -/
theorem earlier_open_matched (full : List Instruction) (iq i : Nat)
    (insq : Instruction) (hlt : iq < i)
    (hg : full[iq]? = some insq) (hb : insq.raw_instruction = .beginLoop)
    (hscan : dyckScan 0 (segBrackets full 0 i) = some 0) :
    ∃ j, IsMatch full iq j := by
  have hsplit : segBrackets full 0 i =
      segBrackets full 0 iq ++ bracketsOf [insq] ++
        segBrackets full (iq + 1) i :=
    segBrackets_split full 0 iq i insq (by omega) hlt hg
  rw [hsplit, bracketsOf_single_begin hb, List.append_assoc,
    dyckScan_append] at hscan
  cases hc : dyckScan 0 (segBrackets full 0 iq) with
  | none => rw [hc] at hscan; cases hscan
  | some c =>
    rw [hc] at hscan
    have h4 : dyckScan c (true :: segBrackets full (iq + 1) i) = some 0 :=
      hscan
    rw [dyckScan_true] at h4
    obtain ⟨w₁, w₂, hw, hw₁, hw₂⟩ :=
      dyckScan_split_aux (segBrackets full (iq + 1) i).length
        (segBrackets full (iq + 1) i) c le_rfl h4
    obtain ⟨S₁, insj, S₂, hS, hSw₁, _, hxe, _⟩ :=
      bracketsOf_decomp ((full.drop (iq + 1)).take (i - (iq + 1))) w₁ false w₂
        hw
    obtain ⟨hgj, hpre, hlen⟩ :=
      seg_decomp_index full (iq + 1) (i - (iq + 1)) S₁ insj S₂ hS
    refine ⟨iq + 1 + S₁.length, by omega, ?_, ?_, ?_⟩
    · unfold instrAt
      rw [hg]
      simp [hb]
    · unfold instrAt
      rw [hgj]
      simp [hxe rfl]
    · have hseg : segBrackets full (iq + 1) (iq + 1 + S₁.length) = w₁ := by
        unfold segBrackets
        rw [show iq + 1 + S₁.length - (iq + 1) = S₁.length from by omega, hpre,
          hSw₁]
      rw [hseg]
      exact dyckScan_balanced w₁.length w₁ le_rfl hw₁

/-- A `BeginLoop` position with a zero prefix counter after which the
counter never returns to zero is unmatched. -/
theorem bottom_unmatched (full : List Instruction) (i : Nat)
    (hscan : dyckScan 0 (segBrackets full 0 i) = some 0)
    (hafter : ∀ b m, i < b → b ≤ full.length →
      dyckScan 0 (segBrackets full 0 b) = some m → 1 ≤ m) :
    ∀ j, ¬ IsMatch full i j := by
  intro j hm
  obtain ⟨hij, hbi, hej, hbal⟩ := hm
  obtain ⟨insi, hgi, hri⟩ := instrAt_eq_some hbi
  obtain ⟨insj, hgj, hrj⟩ := instrAt_eq_some hej
  have hjlen : j < full.length := (List.getElem?_eq_some.mp hgj).1
  have hscan_j : dyckScan 0 (segBrackets full 0 j) = some 1 := by
    rw [segBrackets_split full 0 i j insi (by omega) hij hgi,
      bracketsOf_single_begin hri, List.append_assoc, dyckScan_append, hscan]
    have h1 : dyckScan 1 (segBrackets full (i + 1) j) = some 1 :=
      balanced_dyckScan hbal 1
    show dyckScan 0 (true :: segBrackets full (i + 1) j) = some 1
    rw [dyckScan_true]
    exact h1
  have hscan_j1 : dyckScan 0 (segBrackets full 0 (j + 1)) = some 0 := by
    rw [segBrackets_split full 0 j (j + 1) insj (by omega) (by omega) hgj,
      bracketsOf_single_end hrj, segBrackets_empty, List.append_nil]
    exact dyckScan_append_false hscan_j
  have := hafter (j + 1) 0 (by omega) (by omega) hscan_j1
  omega

/-- Past a failing close (an `EndLoop` with zero prefix counter), every
longer prefix scan fails. -/
theorem failing_close_scan_none (full : List Instruction) (j b : Nat)
    (insj : Instruction) (hgj : full[j]? = some insj)
    (hrj : insj.raw_instruction = .endLoop)
    (hsj : dyckScan 0 (segBrackets full 0 j) = some 0) (hlt : j < b) :
    dyckScan 0 (segBrackets full 0 b) = none := by
  rw [segBrackets_split full 0 j b insj (by omega) hlt hgj,
    bracketsOf_single_end hrj, List.append_assoc, dyckScan_append, hsj]
  show dyckScan 0 (false :: segBrackets full (j + 1) b) = none
  exact dyckScan_false_zero _

/-- The failing close position is unique. -/
theorem failing_close_unique (full : List Instruction) (j j₂ : Nat)
    (insj insj₂ : Instruction)
    (hj : full[j]? = some insj) (hrj : insj.raw_instruction = .endLoop)
    (hsj : dyckScan 0 (segBrackets full 0 j) = some 0)
    (hj₂ : full[j₂]? = some insj₂) (hrj₂ : insj₂.raw_instruction = .endLoop)
    (hsj₂ : dyckScan 0 (segBrackets full 0 j₂) = some 0) : j = j₂ := by
  rcases Nat.lt_trichotomy j j₂ with hlt | heq | hlt
  · rw [failing_close_scan_none full j j₂ insj hj hrj hsj hlt] at hsj₂
    cases hsj₂
  · exact heq
  · rw [failing_close_scan_none full j₂ j insj₂ hj₂ hrj₂ hsj₂ hlt] at hsj
    cases hsj

theorem assocGet_eq_some_mem {m : List (Nat × Nat)} {k v : Nat}
    (h : assocGet m k = some v) : (k, v) ∈ m := by
  unfold assocGet at h
  cases hf : m.find? (fun pr => pr.1 == k) with
  | none => rw [hf] at h; cases h
  | some pr =>
    rw [hf] at h
    injection h with h
    have hmem := List.mem_of_find?_eq_some hf
    have hkey : pr.1 = k := by
      have := List.find?_some hf
      simpa using this
    have hpr : pr = (k, v) := by
      rw [← hkey, ← h]
    rw [← hpr]
    exact hmem

/-- Invariant of the jump-table construction in `VM::new`: every index on
the open-bracket stack (most recent first; `t` counts the pending opens
strictly above the entry) is a `BeginLoop` position whose bracket segment
up to the scan front has exactly `t` pending opens. -/
def StackInv (full : List Instruction) (idx : Nat) : List Nat → Nat → Prop
  | [], _ => True
  | o :: rest, t =>
      o < idx ∧ instrAt full o = some .beginLoop ∧
      dyckScan 0 (segBrackets full (o + 1) idx) = some t ∧
      StackInv full idx rest (t + 1)

theorem StackInv_extend_skip (full : List Instruction) (idx : Nat)
    (ins : Instruction) (hget : full[idx]? = some ins)
    (hbr : bracketsOf [ins] = []) :
    ∀ (stack : List Nat) (t : Nat), StackInv full idx stack t →
      StackInv full (idx + 1) stack t := by
  intro stack
  induction stack with
  | nil => intro t h; trivial
  | cons o rest ih =>
    intro t h
    obtain ⟨ho, hins, hscan, hrest⟩ := h
    refine ⟨by omega, hins, ?_, ih (t + 1) hrest⟩
    rw [segBrackets_split full (o + 1) idx (idx + 1) ins (by omega) (by omega)
      hget, hbr, segBrackets_empty, List.append_nil, List.append_nil]
    exact hscan

theorem StackInv_extend_open (full : List Instruction) (idx : Nat)
    (ins : Instruction) (hget : full[idx]? = some ins)
    (hbr : bracketsOf [ins] = [true]) :
    ∀ (stack : List Nat) (t : Nat), StackInv full idx stack t →
      StackInv full (idx + 1) stack (t + 1) := by
  intro stack
  induction stack with
  | nil => intro t h; trivial
  | cons o rest ih =>
    intro t h
    obtain ⟨ho, hins, hscan, hrest⟩ := h
    refine ⟨by omega, hins, ?_, ih (t + 1) hrest⟩
    rw [segBrackets_split full (o + 1) idx (idx + 1) ins (by omega) (by omega)
      hget, hbr, segBrackets_empty, List.append_nil]
    exact dyckScan_append_true hscan

theorem StackInv_extend_close (full : List Instruction) (idx : Nat)
    (ins : Instruction) (hget : full[idx]? = some ins)
    (hbr : bracketsOf [ins] = [false]) :
    ∀ (stack : List Nat) (t : Nat), StackInv full idx stack (t + 1) →
      StackInv full (idx + 1) stack t := by
  intro stack
  induction stack with
  | nil => intro t h; trivial
  | cons o rest ih =>
    intro t h
    obtain ⟨ho, hins, hscan, hrest⟩ := h
    refine ⟨by omega, hins, ?_, ih (t + 1) hrest⟩
    rw [segBrackets_split full (o + 1) idx (idx + 1) ins (by omega) (by omega)
      hget, hbr, segBrackets_empty, List.append_nil]
    exact dyckScan_append_false hscan

/-- Every pair inserted into the jump-table accumulator while scanning the
suffix `full.drop idx` joins a `BeginLoop` with its matching `EndLoop`. -/
theorem buildBrackets_pairs (full : List Instruction) :
    ∀ (l : List Instruction) (idx : Nat) (stack : List Nat)
      (acc : List (Nat × Nat)) (stack₂ : List Nat) (acc₂ : List (Nat × Nat)),
    full.drop idx = l →
    buildBrackets l idx stack acc = some (stack₂, acc₂) →
    StackInv full idx stack 0 →
    ∀ pr ∈ acc₂, pr ∈ acc ∨ IsMatch full pr.1 pr.2 := by
  intro l
  induction l with
  | nil =>
    intro idx stack acc stack₂ acc₂ hl hbb hinv pr hpr
    injection hbb with hbb
    have h2 : acc = acc₂ := congrArg Prod.snd hbb
    rw [← h2] at hpr
    exact .inl hpr
  | cons ins rest ih =>
    intro idx stack acc stack₂ acc₂ hl hbb hinv pr hpr
    have hget : full[idx]? = some ins := drop_cons_get hl
    have hdrop : full.drop (idx + 1) = rest := drop_cons_succ hl
    by_cases hb : ins.raw_instruction = .beginLoop
    · rw [show buildBrackets (ins :: rest) idx stack acc =
          buildBrackets rest (idx + 1) (idx :: stack) acc from by
        simp [buildBrackets, hb]] at hbb
      have hinv₂ : StackInv full (idx + 1) (idx :: stack) 0 := by
        refine ⟨by omega, ?_, ?_, ?_⟩
        · unfold instrAt
          rw [hget]
          simp [hb]
        · rw [segBrackets_empty]
          exact dyckScan_nil 0
        · exact StackInv_extend_open full idx ins hget
            (bracketsOf_single_begin hb) stack 0 hinv
      exact ih (idx + 1) (idx :: stack) acc stack₂ acc₂ hdrop hbb hinv₂ pr hpr
    · by_cases he : ins.raw_instruction = .endLoop
      · cases stack with
        | nil =>
          rw [show buildBrackets (ins :: rest) idx [] acc = none from by
            simp [buildBrackets, hb, he]] at hbb
          cases hbb
        | cons o stack =>
          rw [show buildBrackets (ins :: rest) idx (o :: stack) acc =
              buildBrackets rest (idx + 1) stack ((o, idx) :: acc) from by
            simp [buildBrackets, hb, he]] at hbb
          obtain ⟨ho, hoins, hoscan, hrest⟩ := hinv
          have hmatch : IsMatch full o idx := by
            refine ⟨ho, hoins, ?_, ?_⟩
            · unfold instrAt
              rw [hget]
              simp [he]
            · exact dyckScan_balanced (segBrackets full (o + 1) idx).length _
                le_rfl hoscan
          have hinv₂ : StackInv full (idx + 1) stack 0 :=
            StackInv_extend_close full idx ins hget (bracketsOf_single_end he)
              stack 0 hrest
          rcases ih (idx + 1) stack ((o, idx) :: acc) stack₂ acc₂ hdrop hbb
            hinv₂ pr hpr with hin | hm
          · rcases List.mem_cons.mp hin with heq | hin₂
            · subst heq
              exact .inr hmatch
            · exact .inl hin₂
          · exact .inr hm
      · rw [show buildBrackets (ins :: rest) idx stack acc =
            buildBrackets rest (idx + 1) stack acc from by
          simp [buildBrackets, hb, he]] at hbb
        have hinv₂ : StackInv full (idx + 1) stack 0 :=
          StackInv_extend_skip full idx ins hget
            (bracketsOf_single_skip hb he) stack 0 hinv
        exact ih (idx + 1) stack acc stack₂ acc₂ hdrop hbb hinv₂ pr hpr

/-- C2: during interpretation, `begin_loop` on a zero cell jumps to the
`open_to_close` entry plus 1 and otherwise falls through to PC + 1;
`end_loop` on a non-zero cell jumps to the `close_to_open` entry plus 1 and
otherwise falls through; every jump-table entry of a constructed machine
joins a `BeginLoop` with its MATCHING `EndLoop` (`IsMatch`: a later
`EndLoop` with a balanced bracket word strictly between them), and the
matching partner is unique on both sides, so the jump targets are exactly
the matching brackets plus 1; finally, the program `"[]"` on a fresh
3-cell machine halts after one executed instruction with the program
counter going 0 to 2 and every cell unchanged. -/
theorem loop_jump_semantics :
    (∀ (vm : VM) (j : Nat), vm.memory.getD vm.pointer 0 = 0 →
      assocGet vm.open_to_close vm.program_counter = some j →
      vm.begin_loop = some (j + 1)) ∧
    (∀ vm : VM, ¬ vm.memory.getD vm.pointer 0 = 0 →
      vm.begin_loop = some (vm.program_counter + 1)) ∧
    (∀ (vm : VM) (j : Nat), ¬ vm.memory.getD vm.pointer 0 = 0 →
      assocGet vm.close_to_open vm.program_counter = some j →
      vm.end_loop = some (j + 1)) ∧
    (∀ vm : VM, vm.memory.getD vm.pointer 0 = 0 →
      vm.end_loop = some (vm.program_counter + 1)) ∧
    (∀ (p : Program) (ms : Nat) (ce : Bool) (vm₀ : VM),
      VM.new ms ce p = some vm₀ →
      (∀ i j, assocGet vm₀.open_to_close i = some j →
        IsMatch p.instructions i j) ∧
      (∀ j i, assocGet vm₀.close_to_open j = some i →
        IsMatch p.instructions i j)) ∧
    (∀ (instrs : List Instruction) (i j j₂ : Nat),
      IsMatch instrs i j → IsMatch instrs i j₂ → j = j₂) ∧
    (∀ (instrs : List Instruction) (i i₂ j : Nat),
      IsMatch instrs i j → IsMatch instrs i₂ j → i = i₂) ∧
    VM.new 3 false (Program.new "" "[]") = some (VM.mk [0, 0, 0] 0 false 0 ""
      [Instruction.new 1 1 .beginLoop, Instruction.new 1 2 .endLoop]
      [(0, 1)] [(1, 0)]) ∧
    runFor 2 (initState (VM.mk [0, 0, 0] 0 false 0 ""
        [Instruction.new 1 1 .beginLoop, Instruction.new 1 2 .endLoop]
        [(0, 1)] [(1, 0)]) []) =
      .halted (ExecState.mk (VM.mk [0, 0, 0] 0 false 2 ""
        [Instruction.new 1 1 .beginLoop, Instruction.new 1 2 .endLoop]
        [(0, 1)] [(1, 0)]) [] AutoNewlineWriter.new [.beginLoop]) := by
  refine ⟨?_, ?_, ?_, ?_, ?_, IsMatch_unique_right, IsMatch_unique_left,
    rfl, rfl⟩
  · intro vm j h hget
    unfold VM.begin_loop
    rw [if_pos (show vm.memory.getD vm.pointer 0 = u8Cell.zero from h), hget]
    rfl
  · intro vm h
    unfold VM.begin_loop
    rw [if_neg (show ¬ vm.memory.getD vm.pointer 0 = u8Cell.zero from h)]
  · intro vm j h hget
    unfold VM.end_loop
    rw [if_pos (show ¬ vm.memory.getD vm.pointer 0 = u8Cell.zero from h), hget]
    rfl
  · intro vm h
    unfold VM.end_loop
    rw [if_neg (show ¬ ¬ vm.memory.getD vm.pointer 0 = u8Cell.zero from
      fun hc => hc h)]
  · intro p ms ce vm₀ hvm
    unfold VM.new at hvm
    cases hbb : buildBrackets p.instructions 0 [] [] with
    | none => rw [hbb] at hvm; cases hvm
    | some sb =>
      obtain ⟨st, ac⟩ := sb
      rw [hbb] at hvm
      injection hvm with hvm
      subst hvm
      constructor
      · intro i j hget
        have hmem : (i, j) ∈ ac := assocGet_eq_some_mem hget
        rcases buildBrackets_pairs p.instructions p.instructions 0 [] [] st ac
          rfl hbb trivial (i, j) hmem with hin | hm
        · cases hin
        · exact hm
      · intro j i hget
        have hmem₂ : (j, i) ∈ ac.map fun pr => (pr.2, pr.1) :=
          assocGet_eq_some_mem hget
        obtain ⟨pr, hpr, heq⟩ := List.mem_map.mp hmem₂
        have h1 : pr.2 = j := congrArg Prod.fst heq
        have h2 : pr.1 = i := congrArg Prod.snd heq
        rcases buildBrackets_pairs p.instructions p.instructions 0 [] [] st ac
          rfl hbb trivial pr hpr with hin | hm
        · cases hin
        · rw [← h1, ← h2]
          exact hm

/-- Witness for C2: the four jump rules at concrete machines, and the
jump-table entry of the program `"[]"` joining index 0 with its matching
index 1. -/
theorem loop_jump_semantics_witness :
    (VM.mk [0] 0 false 0 "" [] [(0, 1)] [(1, 0)]).begin_loop = some 2 ∧
    (VM.mk [5] 0 false 0 "" [] [(0, 1)] [(1, 0)]).begin_loop = some 1 ∧
    (VM.mk [5] 0 false 1 "" [] [(0, 1)] [(1, 0)]).end_loop = some 1 ∧
    (VM.mk [0] 0 false 7 "" [] [] []).end_loop = some 8 ∧
    IsMatch (Program.new "" "[]").instructions 0 1 := by
  obtain ⟨h1, h2, h3, h4, h5, _, _, h8, _⟩ := loop_jump_semantics
  refine ⟨h1 _ 1 rfl rfl, h2 _ (by decide), h3 _ 0 (by decide) rfl, h4 _ rfl,
    ?_⟩
  exact (h5 (Program.new "" "[]") 3 false _ h8).1 0 1 rfl

/-- Counter and bottom invariant of the `validate` scan over the suffix
`full.drop idx`: the stack height equals the pending-open counter of the
processed prefix; an error reports the `EndLoop` at the position whose
prefix counter is zero; the bottom of a surviving stack (what `validate`
reports as unmatched open) sits at a position with prefix counter zero
after which the counter never returns to zero. -/
theorem validateAux_scan_facts (fp : String) (full : List Instruction) :
    ∀ (l : List Instruction) (idx : Nat) (stack : List Instruction),
    full.drop idx = l → idx ≤ full.length →
    dyckScan 0 (segBrackets full 0 idx) = some stack.length →
    (∀ bins, stack.getLast? = some bins → ∃ i, full[i]? = some bins ∧
      bins.raw_instruction = .beginLoop ∧ i < idx ∧
      dyckScan 0 (segBrackets full 0 i) = some 0 ∧
      ∀ b m, i < b → b ≤ idx →
        dyckScan 0 (segBrackets full 0 b) = some m → 1 ≤ m) →
    (∀ e, validateAux fp stack l = .error e →
      ∃ ins j, e = .missingOpenBracket fp ins ∧ full[j]? = some ins ∧
        ins.raw_instruction = .endLoop ∧
        dyckScan 0 (segBrackets full 0 j) = some 0) ∧
    (∀ s bins, validateAux fp stack l = .ok s → s.getLast? = some bins →
      ∃ i, full[i]? = some bins ∧ bins.raw_instruction = .beginLoop ∧
        dyckScan 0 (segBrackets full 0 i) = some 0 ∧
        ∀ b m, i < b → b ≤ full.length →
          dyckScan 0 (segBrackets full 0 b) = some m → 1 ≤ m) := by
  intro l
  induction l with
  | nil =>
    intro idx stack hl hile hscan hbot
    have hidx : idx = full.length := by
      have h1 := List.drop_eq_nil_iff.mp hl
      omega
    constructor
    · intro e he
      rw [show validateAux fp stack [] = .ok stack from rfl] at he
      cases he
    · intro s bins hs hgl
      rw [show validateAux fp stack [] = .ok stack from rfl] at hs
      injection hs with hs
      subst hs
      obtain ⟨i, h1, h2, h3, h4, h5⟩ := hbot bins hgl
      exact ⟨i, h1, h2, h4, fun b m hb1 hb2 hb3 => h5 b m hb1 (by omega) hb3⟩
  | cons ins rest ih =>
    intro idx stack hl hile hscan hbot
    have hget : full[idx]? = some ins := drop_cons_get hl
    have hdrop : full.drop (idx + 1) = rest := drop_cons_succ hl
    have hidxlt : idx < full.length := (List.getElem?_eq_some.mp hget).1
    by_cases hb : ins.raw_instruction = .beginLoop
    · have hv : validateAux fp stack (ins :: rest) =
          validateAux fp (ins :: stack) rest := by
        simp [validateAux, hb]
      have hscan₂ : dyckScan 0 (segBrackets full 0 (idx + 1)) =
          some (ins :: stack).length := by
        rw [segBrackets_split full 0 idx (idx + 1) ins (by omega) (by omega)
          hget, bracketsOf_single_begin hb, segBrackets_empty,
          List.append_nil, List.length_cons]
        exact dyckScan_append_true hscan
      have hbot₂ : ∀ bins, (ins :: stack).getLast? = some bins →
          ∃ i, full[i]? = some bins ∧ bins.raw_instruction = .beginLoop ∧
            i < idx + 1 ∧ dyckScan 0 (segBrackets full 0 i) = some 0 ∧
            ∀ b m, i < b → b ≤ idx + 1 →
              dyckScan 0 (segBrackets full 0 b) = some m → 1 ≤ m := by
        intro bins hgl
        rcases getLast?_cons_cases hgl with ⟨hnil, hbins⟩ | hgl₂
        · subst hbins
          refine ⟨idx, hget, hb, by omega, ?_, ?_⟩
          · rw [hnil] at hscan
            simpa using hscan
          · intro b m hb1 hb2 hb3
            have hbe : b = idx + 1 := by omega
            subst hbe
            rw [hscan₂] at hb3
            injection hb3 with hb3
            rw [hnil] at hb3
            simp at hb3
            omega
        · obtain ⟨i, h1, h2, h3, h4, h5⟩ := hbot bins hgl₂
          refine ⟨i, h1, h2, by omega, h4, ?_⟩
          intro b m hb1 hb2 hb3
          rcases Nat.lt_or_ge b (idx + 1) with hblt | hbge
          · exact h5 b m hb1 (by omega) hb3
          · have hbe : b = idx + 1 := by omega
            subst hbe
            rw [hscan₂] at hb3
            injection hb3 with hb3
            rw [List.length_cons] at hb3
            omega
      obtain ⟨ihe, iho⟩ := ih (idx + 1) (ins :: stack) hdrop (by omega) hscan₂
        hbot₂
      exact ⟨fun e heq => ihe e (by rw [hv] at heq; exact heq),
        fun s bins hs hgl => iho s bins (by rw [hv] at hs; exact hs) hgl⟩
    · by_cases he : ins.raw_instruction = .endLoop
      · cases stack with
        | nil =>
          have hv : validateAux fp [] (ins :: rest) =
              .error (.missingOpenBracket fp ins) := by
            simp [validateAux, hb, he]
          constructor
          · intro e heq
            rw [hv] at heq
            injection heq with heq
            refine ⟨ins, idx, heq.symm, hget, he, ?_⟩
            simpa using hscan
          · intro s bins hs hgl
            rw [hv] at hs
            cases hs
        | cons top stack₂ =>
          have hv : validateAux fp (top :: stack₂) (ins :: rest) =
              validateAux fp stack₂ rest := by
            simp [validateAux, hb, he]
          have hscan₂ : dyckScan 0 (segBrackets full 0 (idx + 1)) =
              some stack₂.length := by
            rw [segBrackets_split full 0 idx (idx + 1) ins (by omega)
              (by omega) hget, bracketsOf_single_end he, segBrackets_empty,
              List.append_nil]
            exact dyckScan_append_false hscan
          have hbot₂ : ∀ bins, stack₂.getLast? = some bins →
              ∃ i, full[i]? = some bins ∧ bins.raw_instruction = .beginLoop ∧
                i < idx + 1 ∧ dyckScan 0 (segBrackets full 0 i) = some 0 ∧
                ∀ b m, i < b → b ≤ idx + 1 →
                  dyckScan 0 (segBrackets full 0 b) = some m → 1 ≤ m := by
            intro bins hgl
            have hne : stack₂ ≠ [] := by
              intro hc
              rw [hc] at hgl
              cases hgl
            have hglc : (top :: stack₂).getLast? = some bins := by
              cases stack₂ with
              | nil => exact absurd rfl hne
              | cons y ys =>
                rw [List.getLast?_cons_cons]
                exact hgl
            obtain ⟨i, h1, h2, h3, h4, h5⟩ := hbot bins hglc
            refine ⟨i, h1, h2, by omega, h4, ?_⟩
            intro b m hb1 hb2 hb3
            rcases Nat.lt_or_ge b (idx + 1) with hblt | hbge
            · exact h5 b m hb1 (by omega) hb3
            · have hbe : b = idx + 1 := by omega
              subst hbe
              rw [hscan₂] at hb3
              injection hb3 with hb3
              have hlen : 1 ≤ stack₂.length := by
                cases stack₂ with
                | nil => exact absurd rfl hne
                | cons y ys => simp
              omega
          obtain ⟨ihe, iho⟩ := ih (idx + 1) stack₂ hdrop (by omega) hscan₂
            hbot₂
          exact ⟨fun e heq => ihe e (by rw [hv] at heq; exact heq),
            fun s bins hs hgl => iho s bins (by rw [hv] at hs; exact hs) hgl⟩
      · have hv : validateAux fp stack (ins :: rest) =
            validateAux fp stack rest := by
          simp [validateAux, hb, he]
        have hscan₂ : dyckScan 0 (segBrackets full 0 (idx + 1)) =
            some stack.length := by
          rw [segBrackets_split full 0 idx (idx + 1) ins (by omega) (by omega)
            hget, bracketsOf_single_skip hb he, segBrackets_empty,
            List.append_nil, List.append_nil]
          exact hscan
        have hbot₂ : ∀ bins, stack.getLast? = some bins →
            ∃ i, full[i]? = some bins ∧ bins.raw_instruction = .beginLoop ∧
              i < idx + 1 ∧ dyckScan 0 (segBrackets full 0 i) = some 0 ∧
              ∀ b m, i < b → b ≤ idx + 1 →
                dyckScan 0 (segBrackets full 0 b) = some m → 1 ≤ m := by
          intro bins hgl
          have hne : stack ≠ [] := by
            intro hc
            rw [hc] at hgl
            cases hgl
          obtain ⟨i, h1, h2, h3, h4, h5⟩ := hbot bins hgl
          refine ⟨i, h1, h2, by omega, h4, ?_⟩
          intro b m hb1 hb2 hb3
          rcases Nat.lt_or_ge b (idx + 1) with hblt | hbge
          · exact h5 b m hb1 (by omega) hb3
          · have hbe : b = idx + 1 := by omega
            subst hbe
            rw [hscan₂] at hb3
            injection hb3 with hb3
            have hlen : 1 ≤ stack.length := by
              cases stack with
              | nil => exact absurd rfl hne
              | cons y ys => simp
            omega
        obtain ⟨ihe, iho⟩ := ih (idx + 1) stack hdrop (by omega) hscan₂ hbot₂
        exact ⟨fun e heq => ihe e (by rw [hv] at heq; exact heq),
          fun s bins hs hgl => iho s bins (by rw [hv] at hs; exact hs) hgl⟩

/-- C8: validation failure reports the right bracket and position,
universally.  An unmatched-close error carries the program's source
identifier and the instruction at the unique position `j` holding an
`EndLoop` with no pending open before it (prefix counter zero) — the close
bracket at which the scan fails.  An unmatched-open error carries the
source identifier and the instruction at a position `i` holding a
`BeginLoop` with prefix counter zero after which the pending-open count
never returns to zero; consequently `i` has no matching `EndLoop` while
every `BeginLoop` before `i` does have one, i.e. the reported open is the
earliest-remaining unmatched one.  On the source `"]"` the reported close
is at row 1, col 1, and on `"[[[]"` the reported open is at row 1,
col 1. -/
theorem validate_error_reporting :
    (∀ (p : Program) (fp : String) (ins : Instruction),
      p.validate = .error (.missingOpenBracket fp ins) →
        fp = p.file_path ∧
        ∃ j, p.instructions[j]? = some ins ∧
          ins.raw_instruction = .endLoop ∧
          dyckScan 0 (segBrackets p.instructions 0 j) = some 0 ∧
          ∀ jq insq, p.instructions[jq]? = some insq →
            insq.raw_instruction = .endLoop →
            dyckScan 0 (segBrackets p.instructions 0 jq) = some 0 →
            jq = j) ∧
    (∀ (p : Program) (fp : String) (ins : Instruction),
      p.validate = .error (.missingCloseBracket fp ins) →
        fp = p.file_path ∧
        ∃ i, p.instructions[i]? = some ins ∧
          ins.raw_instruction = .beginLoop ∧
          dyckScan 0 (segBrackets p.instructions 0 i) = some 0 ∧
          (∀ b m, i < b → b ≤ p.instructions.length →
            dyckScan 0 (segBrackets p.instructions 0 b) = some m → 1 ≤ m) ∧
          (∀ j, ¬ IsMatch p.instructions i j) ∧
          (∀ iq insq, iq < i → p.instructions[iq]? = some insq →
            insq.raw_instruction = .beginLoop →
            ∃ j, IsMatch p.instructions iq j)) ∧
    (Program.new "" "]").validate =
      .error (.missingOpenBracket "" (Instruction.new 1 1 .endLoop)) ∧
    (Program.new "" "[[[]").validate =
      .error (.missingCloseBracket "" (Instruction.new 1 1 .beginLoop)) := by
  refine ⟨?_, ?_, rfl, rfl⟩
  · intro p fp ins h
    obtain ⟨herr, hok⟩ := validateAux_scan_facts p.file_path p.instructions
      p.instructions 0 [] rfl (Nat.zero_le _)
      (by rw [segBrackets_empty]; exact dyckScan_nil 0)
      (by intro bins hgl; simp at hgl)
    cases hv : validateAux p.file_path [] p.instructions with
    | error e =>
      have hval : p.validate = .error e := by
        unfold Program.validate
        rw [hv]
      rw [hval] at h
      injection h with h
      obtain ⟨ins₂, j, he2, hgj, hrj, hsj⟩ := herr e hv
      rw [h] at he2
      injection he2 with hfp hins
      subst hins
      refine ⟨hfp, j, hgj, hrj, hsj, ?_⟩
      intro jq insq hgq hrq hsq
      exact failing_close_unique p.instructions jq j insq ins hgq hrq hsq
        hgj hrj hsj
    | ok s =>
      have hval : p.validate = (match s.getLast? with
          | some insb => .error (.missingCloseBracket p.file_path insb)
          | none => .ok ()) := by
        unfold Program.validate
        rw [hv]
      cases hgl : s.getLast? with
      | some insb =>
        rw [hgl] at hval
        rw [hval] at h
        injection h with h
        cases h
      | none =>
        rw [hgl] at hval
        rw [hval] at h
        cases h
  · intro p fp ins h
    obtain ⟨herr, hok⟩ := validateAux_scan_facts p.file_path p.instructions
      p.instructions 0 [] rfl (Nat.zero_le _)
      (by rw [segBrackets_empty]; exact dyckScan_nil 0)
      (by intro bins hgl; simp at hgl)
    cases hv : validateAux p.file_path [] p.instructions with
    | error e =>
      have hval : p.validate = .error e := by
        unfold Program.validate
        rw [hv]
      rw [hval] at h
      injection h with h
      obtain ⟨ins₂, j, he2, h3, h4, h5⟩ := herr e hv
      rw [h] at he2
      cases he2
    | ok s =>
      have hval : p.validate = (match s.getLast? with
          | some insb => .error (.missingCloseBracket p.file_path insb)
          | none => .ok ()) := by
        unfold Program.validate
        rw [hv]
      cases hgl : s.getLast? with
      | none =>
        rw [hgl] at hval
        rw [hval] at h
        cases h
      | some insb =>
        rw [hgl] at hval
        rw [hval] at h
        injection h with h
        injection h with hfp hins
        obtain ⟨i, h1, h2, h3, h4⟩ := hok s insb hv hgl
        subst hins
        refine ⟨hfp.symm, i, h1, h2, h3, h4, ?_, ?_⟩
        · exact bottom_unmatched p.instructions i h3 h4
        · intro iq insq hltq hgq hbq
          exact earlier_open_matched p.instructions iq i insq hltq hgq hbq h3

/-- Witness for C8, exercising both general implications on the spec's
concrete examples. -/
theorem validate_error_reporting_witness :
    ("" : String) = (Program.new "" "]").file_path ∧
      ("" : String) = (Program.new "" "[[[]").file_path := by
  obtain ⟨h1, h2, h3, h4⟩ := validate_error_reporting
  exact ⟨(h1 (Program.new "" "]") "" (Instruction.new 1 1 .endLoop) h3).1,
    (h2 (Program.new "" "[[[]") "" (Instruction.new 1 1 .beginLoop) h4).1⟩

end BFI
